import Mathlib

/-!
Verification development for the block-Hamiltonian / optical-Bloch-equation core
(`pylcp/hamiltonian.py` and `obe.py`).

Matrices are modelled as functions `ℕ → ℕ → ℂ` (entries outside the active
index range are irrelevant: every definition below only ever reads entries
inside the loop bounds that appear in the source).  The flattened density
vector stores entry `(i, j)` at index `i + j*n`, exactly as
`obe.density_index` computes it.
-/

open Finset

namespace PyLCP

noncomputable section

/-- Source `obe.density_index`: the index in the flattened `rho` vector that
corresponds to the element `rho_{ij}`, namely `ii + jj*n`. -/
def density_index (n i j : ℕ) : ℕ := i + j * n

lemma density_index_lt {n i j : ℕ} (hi : i < n) (hj : j < n) :
    density_index n i j < n * n := by
  have h1 : i + j * n < (j + 1) * n := by
    have : (j + 1) * n = j * n + n := by ring
    omega
  have h2 : (j + 1) * n ≤ n * n := Nat.mul_le_mul_right n hj
  exact lt_of_lt_of_le h1 h2

/-- Injectivity of the flattening map; only the first components need to be
in range. -/
lemma density_index_inj {n i j p q : ℕ} (hi : i < n) (hp : p < n) :
    density_index n i j = density_index n p q ↔ i = p ∧ j = q := by
  constructor
  · intro h
    unfold density_index at h
    have hmod : (i + j * n) % n = (p + q * n) % n := by rw [h]
    rw [Nat.add_mul_mod_self_right, Nat.add_mul_mod_self_right,
      Nat.mod_eq_of_lt hi, Nat.mod_eq_of_lt hp] at hmod
    subst hmod
    refine ⟨rfl, ?_⟩
    have hn : 0 < n := Nat.pos_of_ne_zero (by omega)
    have hjq : j * n = q * n := by omega
    exact Nat.eq_of_mul_eq_mul_right hn hjq
  · rintro ⟨rfl, rfl⟩; rfl

lemma density_index_mod {n i j : ℕ} (hi : i < n) :
    density_index n i j % n = i := by
  unfold density_index
  rw [Nat.add_mul_mod_self_right, Nat.mod_eq_of_lt hi]

lemma density_index_div {n i j : ℕ} (hi : i < n) :
    density_index n i j / n = j := by
  unfold density_index
  have hn : 0 < n := by omega
  rw [Nat.add_mul_div_right _ _ hn, Nat.div_eq_of_lt hi, Nat.zero_add]

/-- Re-index a sum over the flattened range `n*n` as a double sum over matrix
index pairs. -/
lemma sum_flat_eq_sum_pairs {M : Type*} [AddCommMonoid M] (n : ℕ) (f : ℕ → M) :
    ∑ a ∈ Finset.range (n * n), f a
      = ∑ i ∈ Finset.range n, ∑ j ∈ Finset.range n, f (density_index n i j) := by
  rcases Nat.eq_zero_or_pos n with hn | hn
  · subst hn; simp
  rw [← Finset.sum_product']
  refine (Finset.sum_nbij' (fun a => (a % n, a / n))
    (fun p => density_index n p.1 p.2) ?_ ?_ ?_ ?_ ?_)
  · intro a ha
    rw [Finset.mem_range] at ha
    refine Finset.mem_product.mpr ⟨Finset.mem_range.mpr (Nat.mod_lt _ hn),
      Finset.mem_range.mpr ?_⟩
    exact Nat.div_lt_of_lt_mul (by omega)
  · intro p hp
    rw [Finset.mem_product, Finset.mem_range, Finset.mem_range] at hp
    exact Finset.mem_range.mpr (density_index_lt hp.1 hp.2)
  · intro a _
    show density_index n (a % n) (a / n) = a
    unfold density_index
    rw [Nat.mul_comm (a / n) n]
    exact Nat.mod_add_div a n
  · intro p hp
    rw [Finset.mem_product, Finset.mem_range, Finset.mem_range] at hp
    show (density_index n p.1 p.2 % n, density_index n p.1 p.2 / n) = p
    rw [density_index_mod hp.1, density_index_div hp.1]
  · intro a _
    have ha : density_index n (a % n) (a / n) = a := by
      unfold density_index
      rw [Nat.mul_comm (a / n) n]
      exact Nat.mod_add_div a n
    exact congrArg f ha.symm

/-- Matrix–vector product of a flattened evolution matrix (`A @ x` in the
source), summing over the first `m` coordinates. -/
def mulVecN (m : ℕ) (M : ℕ → ℕ → ℂ) (v : ℕ → ℂ) : ℕ → ℂ :=
  fun a => ∑ b ∈ Finset.range m, M a b * v b

/-- `n × n` matrix product. -/
def matMulN (n : ℕ) (A B : ℕ → ℕ → ℂ) : ℕ → ℕ → ℂ :=
  fun i j => ∑ k ∈ Finset.range n, A i k * B k j

/-- The flattened density vector: entry `(i, j)` of `ρ` is stored at flat index
`density_index n i j = i + j*n`. -/
def flattenRho (n : ℕ) (ρ : ℕ → ℕ → ℂ) : ℕ → ℂ :=
  fun a => ρ (a % n) (a / n)

lemma flattenRho_density_index {n i j : ℕ} (ρ : ℕ → ℕ → ℂ) (hi : i < n) :
    flattenRho n ρ (density_index n i j) = ρ i j := by
  unfold flattenRho
  rw [density_index_mod hi, density_index_div hi]

/-- Source `obe.build_coherent_ev_submatrix`: the triple loop over
`(ii, jj, kk)` accumulates `+1j*H[kk,jj]` at position
`(density_index ii jj, density_index ii kk)` and `-1j*H[ii,kk]` at position
`(density_index ii jj, density_index kk jj)`.  Since addition is commutative
the final entry value is the sum of all loop contributions. -/
def build_coherent_ev_submatrix (n : ℕ) (H : ℕ → ℕ → ℂ) : ℕ → ℕ → ℂ :=
  fun a b =>
    ∑ ii ∈ Finset.range n, ∑ jj ∈ Finset.range n, ∑ kk ∈ Finset.range n,
      ((if a = density_index n ii jj ∧ b = density_index n ii kk then
          Complex.I * H kk jj else 0)
        - (if a = density_index n ii jj ∧ b = density_index n kk jj then
          Complex.I * H ii kk else 0))

/-- Closed form of the entries of the coherent-evolution superoperator. -/
lemma build_coherent_ev_apply {n : ℕ} (H : ℕ → ℕ → ℂ) {i j k l : ℕ}
    (hi : i < n) (hj : j < n) (hk : k < n) (hl : l < n) :
    build_coherent_ev_submatrix n H (density_index n i j) (density_index n k l)
      = (if i = k then Complex.I * H l j else 0)
        - (if j = l then Complex.I * H i k else 0) := by
  unfold build_coherent_ev_submatrix
  have step : ∀ ii ∈ Finset.range n, ∀ jj ∈ Finset.range n, ∀ kk ∈ Finset.range n,
      ((if density_index n i j = density_index n ii jj
          ∧ density_index n k l = density_index n ii kk then
          Complex.I * H kk jj else 0)
        - (if density_index n i j = density_index n ii jj
          ∧ density_index n k l = density_index n kk jj then
          Complex.I * H ii kk else 0))
      = ((if ii = i ∧ jj = j ∧ kk = l ∧ i = k then Complex.I * H kk jj else 0)
        - (if ii = i ∧ jj = j ∧ kk = k ∧ j = l then Complex.I * H ii kk else 0)) := by
    intro ii hii jj hjj kk hkk
    rw [Finset.mem_range] at hii hjj hkk
    have e1 : (density_index n i j = density_index n ii jj
        ∧ density_index n k l = density_index n ii kk)
        ↔ (ii = i ∧ jj = j ∧ kk = l ∧ i = k) := by
      rw [density_index_inj hi hii, density_index_inj hk hii]
      constructor
      · rintro ⟨⟨rfl, rfl⟩, h2⟩; exact ⟨rfl, rfl, h2.2.symm, h2.1.symm⟩
      · rintro ⟨rfl, rfl, rfl, rfl⟩; exact ⟨⟨rfl, rfl⟩, rfl, rfl⟩
    have e2 : (density_index n i j = density_index n ii jj
        ∧ density_index n k l = density_index n kk jj)
        ↔ (ii = i ∧ jj = j ∧ kk = k ∧ j = l) := by
      rw [density_index_inj hi hii, density_index_inj hk hkk]
      constructor
      · rintro ⟨⟨rfl, rfl⟩, h2⟩; exact ⟨rfl, rfl, h2.1.symm, h2.2.symm⟩
      · rintro ⟨rfl, rfl, rfl, rfl⟩; exact ⟨⟨rfl, rfl⟩, rfl, rfl⟩
    rw [if_congr e1 rfl rfl, if_congr e2 rfl rfl]
  rw [Finset.sum_congr rfl fun ii hii => Finset.sum_congr rfl fun jj hjj =>
    Finset.sum_congr rfl fun kk hkk => step ii hii jj hjj kk hkk]
  simp only [ite_and, Finset.sum_sub_distrib, Finset.sum_ite_irrel,
    Finset.sum_const_zero, Finset.sum_ite_eq', Finset.mem_range]
  simp [hi, hj, hk, hl]

/-- The coherent-evolution matrix acts on the flattened density vector as
`ρ ↦ i(ρH − Hρ)`. -/
lemma coherent_ev_mulVec {n : ℕ} (H ρ : ℕ → ℕ → ℂ) {i j : ℕ}
    (hi : i < n) (hj : j < n) :
    mulVecN (n * n) (build_coherent_ev_submatrix n H) (flattenRho n ρ)
        (density_index n i j)
      = Complex.I * (matMulN n ρ H i j - matMulN n H ρ i j) := by
  unfold mulVecN
  rw [sum_flat_eq_sum_pairs]
  have step : ∀ c ∈ Finset.range n, ∀ d ∈ Finset.range n,
      build_coherent_ev_submatrix n H (density_index n i j) (density_index n c d)
        * flattenRho n ρ (density_index n c d)
      = ((if i = c then Complex.I * H d j else 0)
          - (if j = d then Complex.I * H i c else 0)) * ρ c d := by
    intro c hc d hd
    rw [Finset.mem_range] at hc hd
    rw [build_coherent_ev_apply H hi hj hc hd, flattenRho_density_index ρ hc]
  rw [Finset.sum_congr rfl fun c hc => Finset.sum_congr rfl fun d hd =>
    step c hc d hd]
  simp only [sub_mul, ite_mul, zero_mul, Finset.sum_sub_distrib,
    Finset.sum_ite_irrel, Finset.sum_const_zero, Finset.sum_ite_eq,
    Finset.mem_range, hi, hj, if_true]
  unfold matMulN
  rw [mul_sub, Finset.mul_sum, Finset.mul_sum]
  have h1 : ∑ d ∈ Finset.range n, Complex.I * H d j * ρ i d
      = ∑ d ∈ Finset.range n, Complex.I * (ρ i d * H d j) :=
    Finset.sum_congr rfl fun d _ => by ring
  have h2 : ∑ c ∈ Finset.range n, Complex.I * H i c * ρ c j
      = ∑ c ∈ Finset.range n, Complex.I * (H i c * ρ c j) :=
    Finset.sum_congr rfl fun c _ => by ring
  rw [h1, h2]

/-- C1 (amended).  For every `n×n` matrix `H` and every matrix `ρ`, the
`N²×N²` matrix returned by `build_coherent_ev_submatrix(H)`, applied to the
flattened vector of `ρ` (entry `(i,j)` stored at index `i + j·n`), yields the
flattening of `−i[H,ρ] = i(ρH − Hρ)` (the claim stated `i[H,ρ] = i(Hρ − ρH)`,
which has the opposite sign); its only nonzero contributions are exactly the
stated index algebra: the `(i,j)↦(i,k)` entry accumulates `i·H[k,j]` and the
`(i,j)↦(k,j)` entry accumulates `−i·H[i,k]`. -/
theorem C1_coherent_ev_action (n : ℕ) (H ρ : ℕ → ℕ → ℂ) (i j : Fin n) :
    mulVecN (n * n) (build_coherent_ev_submatrix n H) (flattenRho n ρ)
        (density_index n i j)
      = flattenRho n
          (fun a b => Complex.I * (matMulN n ρ H a b - matMulN n H ρ a b))
          (density_index n i j)
    ∧ ∀ k l : Fin n,
      build_coherent_ev_submatrix n H (density_index n i j)
          (density_index n k l)
        = (if (i : ℕ) = k then Complex.I * H l j else 0)
          - (if (j : ℕ) = l then Complex.I * H i k else 0) := by
  constructor
  · rw [coherent_ev_mulVec H ρ i.isLt j.isLt,
      flattenRho_density_index _ i.isLt]
  · intro k l
    exact build_coherent_ev_apply H i.isLt j.isLt k.isLt l.isLt

/-- Concrete 2×2 Hamiltonian used to refute the sign in C1. -/
def cexH : ℕ → ℕ → ℂ := fun a b => if a = 0 ∧ b = 1 then 1 else 0

/-- Concrete 2×2 density matrix used to refute the sign in C1. -/
def cexRho : ℕ → ℕ → ℂ := fun a b => if a = 1 ∧ b = 1 then 1 else 0

/-- C1 counterexample: with `H = |0⟩⟨1|` and `ρ = |1⟩⟨1|` (n = 2), the
flattened entry `(0,1)` of the matrix–vector product is `−i`, while the
flattening of `i[H,ρ] = i(Hρ − ρH)` has entry `+i` there: the claim's stated
commutator direction is wrong. -/
theorem C1_counterexample :
    mulVecN (2 * 2) (build_coherent_ev_submatrix 2 cexH) (flattenRho 2 cexRho)
        (density_index 2 0 1)
      ≠ flattenRho 2
          (fun a b => Complex.I * (matMulN 2 cexH cexRho a b
            - matMulN 2 cexRho cexH a b))
          (density_index 2 0 1) := by
  have hL : mulVecN (2 * 2) (build_coherent_ev_submatrix 2 cexH)
      (flattenRho 2 cexRho) (density_index 2 0 1)
      = Complex.I * (matMulN 2 cexRho cexH 0 1 - matMulN 2 cexH cexRho 0 1) :=
    coherent_ev_mulVec cexH cexRho (by norm_num) (by norm_num)
  rw [hL, flattenRho_density_index _ (by norm_num)]
  simp only [matMulN, Finset.sum_range_succ, Finset.sum_range_zero, cexH,
    cexRho]
  norm_num [Complex.ext_iff]


/-! ### Real-basis change-of-basis matrices (source `obe.build_transform_matrices`)

The build loops write pairwise-disjoint entries (the diagonal loop writes
`(di(i,i), di(i,i))` and the pair loops, for `i < j`, write four distinct
cells in rows `di(i,j)` and `di(j,i)`), so the assembled matrix equals the
sum of the individual assignments. -/

/-- Sum corresponding to the `i < j` pair loop with the four written values
`w₁ … w₄` (used for both `U` and `Uinv`). -/
def pairLoop (n : ℕ) (w₁ w₂ w₃ w₄ : ℂ) : ℕ → ℕ → ℂ := fun a b =>
  ∑ i ∈ Finset.range n, ∑ j ∈ Finset.Ico (i + 1) n,
    ((if a = density_index n i j ∧ b = density_index n i j then w₁ else 0)
      + (if a = density_index n i j ∧ b = density_index n j i then w₂ else 0)
      + (if a = density_index n j i ∧ b = density_index n i j then w₃ else 0)
      + (if a = density_index n j i ∧ b = density_index n j i then w₄ else 0))

/-- Sum corresponding to the diagonal loop writing `w` at
`(di(i,i), di(i,i))`. -/
def diagLoop (n : ℕ) (w : ℂ) : ℕ → ℕ → ℂ := fun a b =>
  ∑ i ∈ Finset.range n,
    if a = density_index n i i ∧ b = density_index n i i then w else 0

/-- Source `U`: diagonal entries 1; for `i < j`, row `di(i,j)` has `1` at
`di(i,j)` and `+i` at `di(j,i)`, row `di(j,i)` has `1` at `di(i,j)` and `−i`
at `di(j,i)`. -/
def Umat (n : ℕ) : ℕ → ℕ → ℂ := fun a b =>
  diagLoop n 1 a b + pairLoop n 1 Complex.I 1 (-Complex.I) a b

/-- Source `Uinv`: diagonal entries 1; for `i < j`, row `di(i,j)` has `0.5`
at both `di(i,j)` and `di(j,i)`, row `di(j,i)` has `−0.5i` at `di(i,j)` and
`+0.5i` at `di(j,i)`. -/
def Uinvmat (n : ℕ) : ℕ → ℕ → ℂ := fun a b =>
  diagLoop n 1 a b
    + pairLoop n (1 / 2) (1 / 2) (-(1 / 2) * Complex.I)
        ((1 / 2) * Complex.I) a b

lemma diagLoop_diag {n p : ℕ} (w : ℂ) (hp : p < n) (x : ℕ) :
    diagLoop n w (density_index n p p) x
      = if x = density_index n p p then w else 0 := by
  unfold diagLoop
  have h1 : ∀ i ∈ Finset.range n,
      (if density_index n p p = density_index n i i ∧ x = density_index n i i
        then w else 0)
      = (if i = p ∧ x = density_index n p p then w else 0) := by
    intro i hi
    rw [Finset.mem_range] at hi
    refine if_congr ?_ rfl rfl
    rw [density_index_inj hp hi]
    constructor
    · rintro ⟨⟨rfl, -⟩, hb⟩; exact ⟨rfl, hb⟩
    · rintro ⟨rfl, hb⟩; exact ⟨⟨rfl, rfl⟩, hb⟩
  rw [Finset.sum_congr rfl h1]
  simp only [ite_and, Finset.sum_ite_irrel, Finset.sum_const_zero,
    Finset.sum_ite_eq', Finset.mem_range, hp, if_true]

lemma diagLoop_offdiag {n p q : ℕ} (w : ℂ) (hp : p < n) (hpq : p ≠ q)
    (x : ℕ) : diagLoop n w (density_index n p q) x = 0 := by
  unfold diagLoop
  rw [Finset.sum_eq_zero]
  intro i hi
  rw [Finset.mem_range] at hi
  rw [if_neg]
  rintro ⟨hd, -⟩
  rw [density_index_inj hp hi] at hd
  omega

lemma pairLoop_row_lt {n p q : ℕ} (w₁ w₂ w₃ w₄ : ℂ) (hpq : p < q)
    (hq : q < n) (x : ℕ) :
    pairLoop n w₁ w₂ w₃ w₄ (density_index n p q) x
      = (if x = density_index n p q then w₁ else 0)
        + (if x = density_index n q p then w₂ else 0) := by
  have hp : p < n := lt_trans hpq hq
  unfold pairLoop
  have h2 : ∀ i ∈ Finset.range n, ∀ j ∈ Finset.Ico (i + 1) n,
      ((if density_index n p q = density_index n i j
          ∧ x = density_index n i j then w₁ else 0)
        + (if density_index n p q = density_index n i j
          ∧ x = density_index n j i then w₂ else 0)
        + (if density_index n p q = density_index n j i
          ∧ x = density_index n i j then w₃ else 0)
        + (if density_index n p q = density_index n j i
          ∧ x = density_index n j i then w₄ else 0))
      = ((if (i = p ∧ j = q) ∧ x = density_index n p q then w₁ else 0)
        + (if (i = p ∧ j = q) ∧ x = density_index n q p then w₂ else 0)) := by
    intro i hi j hj
    rw [Finset.mem_range] at hi
    rw [Finset.mem_Ico] at hj
    have hjn : j < n := hj.2
    have e2 : ¬ (density_index n p q = density_index n j i) := by
      rw [density_index_inj hp hjn]
      rintro ⟨rfl, rfl⟩
      omega
    by_cases h : i = p ∧ j = q
    · rcases h with ⟨rfl, rfl⟩
      simp [e2]
    · have e1 : ¬ (density_index n p q = density_index n i j) := by
        rw [density_index_inj hp hi]
        rintro ⟨rfl, rfl⟩
        exact h ⟨rfl, rfl⟩
      simp [e1, e2, h]
  rw [Finset.sum_congr rfl fun i hi => Finset.sum_congr rfl fun j hj =>
    h2 i hi j hj]
  simp only [ite_and, Finset.sum_add_distrib, Finset.sum_ite_irrel,
    Finset.sum_const_zero, Finset.sum_ite_eq', Finset.mem_range,
    Finset.mem_Ico, hp, if_true]
  have hm : p + 1 ≤ q ∧ q < n := ⟨hpq, hq⟩
  simp [hm]

lemma pairLoop_row_gt {n p q : ℕ} (w₁ w₂ w₃ w₄ : ℂ) (hqp : q < p)
    (hp : p < n) (x : ℕ) :
    pairLoop n w₁ w₂ w₃ w₄ (density_index n p q) x
      = (if x = density_index n q p then w₃ else 0)
        + (if x = density_index n p q then w₄ else 0) := by
  have hq : q < n := lt_trans hqp hp
  unfold pairLoop
  have h2 : ∀ i ∈ Finset.range n, ∀ j ∈ Finset.Ico (i + 1) n,
      ((if density_index n p q = density_index n i j
          ∧ x = density_index n i j then w₁ else 0)
        + (if density_index n p q = density_index n i j
          ∧ x = density_index n j i then w₂ else 0)
        + (if density_index n p q = density_index n j i
          ∧ x = density_index n i j then w₃ else 0)
        + (if density_index n p q = density_index n j i
          ∧ x = density_index n j i then w₄ else 0))
      = ((if (i = q ∧ j = p) ∧ x = density_index n q p then w₃ else 0)
        + (if (i = q ∧ j = p) ∧ x = density_index n p q then w₄ else 0)) := by
    intro i hi j hj
    rw [Finset.mem_range] at hi
    rw [Finset.mem_Ico] at hj
    have hjn : j < n := hj.2
    have e1 : ¬ (density_index n p q = density_index n i j) := by
      rw [density_index_inj hp hi]
      rintro ⟨rfl, rfl⟩
      omega
    by_cases h : i = q ∧ j = p
    · rcases h with ⟨rfl, rfl⟩
      simp [e1]
    · have e2 : ¬ (density_index n p q = density_index n j i) := by
        rw [density_index_inj hp hjn]
        rintro ⟨rfl, rfl⟩
        exact h ⟨rfl, rfl⟩
      simp [e1, e2, h]
  rw [Finset.sum_congr rfl fun i hi => Finset.sum_congr rfl fun j hj =>
    h2 i hi j hj]
  simp only [ite_and, Finset.sum_add_distrib, Finset.sum_ite_irrel,
    Finset.sum_const_zero, Finset.sum_ite_eq', Finset.mem_range,
    Finset.mem_Ico, hq, if_true]
  have hm : q + 1 ≤ p ∧ p < n := ⟨hqp, hp⟩
  simp [hm]

lemma pairLoop_row_diag {n p : ℕ} (w₁ w₂ w₃ w₄ : ℂ) (hp : p < n) (x : ℕ) :
    pairLoop n w₁ w₂ w₃ w₄ (density_index n p p) x = 0 := by
  unfold pairLoop
  rw [Finset.sum_eq_zero]
  intro i hi
  rw [Finset.mem_range] at hi
  rw [Finset.sum_eq_zero]
  intro j hj
  rw [Finset.mem_Ico] at hj
  have hjn : j < n := hj.2
  have e1 : ¬ (density_index n p p = density_index n i j) := by
    rw [density_index_inj hp hi]
    rintro ⟨rfl, rfl⟩
    omega
  have e2 : ¬ (density_index n p p = density_index n j i) := by
    rw [density_index_inj hp hjn]
    rintro ⟨rfl, rfl⟩
    omega
  simp [e1, e2]
/-- Row description of `U` for a diagonal row `di(p,p)`. -/
lemma Umat_row_diag {n p : ℕ} (hp : p < n) (x : ℕ) :
    Umat n (density_index n p p) x
      = if x = density_index n p p then 1 else 0 := by
  unfold Umat
  rw [diagLoop_diag 1 hp, pairLoop_row_diag _ _ _ _ hp, add_zero]

/-- Row description of `U` for a row `di(p,q)` with `p < q`. -/
lemma Umat_row_lt {n p q : ℕ} (hpq : p < q) (hq : q < n) (x : ℕ) :
    Umat n (density_index n p q) x
      = (if x = density_index n p q then 1 else 0)
        + (if x = density_index n q p then Complex.I else 0) := by
  unfold Umat
  rw [diagLoop_offdiag 1 (lt_trans hpq hq) (by omega),
    pairLoop_row_lt _ _ _ _ hpq hq, zero_add]

/-- Row description of `U` for a row `di(p,q)` with `q < p`. -/
lemma Umat_row_gt {n p q : ℕ} (hqp : q < p) (hp : p < n) (x : ℕ) :
    Umat n (density_index n p q) x
      = (if x = density_index n q p then 1 else 0)
        + (if x = density_index n p q then -Complex.I else 0) := by
  unfold Umat
  rw [diagLoop_offdiag 1 hp (by omega),
    pairLoop_row_gt _ _ _ _ hqp hp, zero_add]

/-- Row description of `Uinv` for a diagonal row `di(p,p)`. -/
lemma Uinvmat_row_diag {n p : ℕ} (hp : p < n) (x : ℕ) :
    Uinvmat n (density_index n p p) x
      = if x = density_index n p p then 1 else 0 := by
  unfold Uinvmat
  rw [diagLoop_diag 1 hp, pairLoop_row_diag _ _ _ _ hp, add_zero]

/-- Row description of `Uinv` for a row `di(p,q)` with `p < q`. -/
lemma Uinvmat_row_lt {n p q : ℕ} (hpq : p < q) (hq : q < n) (x : ℕ) :
    Uinvmat n (density_index n p q) x
      = (if x = density_index n p q then (1 / 2 : ℂ) else 0)
        + (if x = density_index n q p then (1 / 2 : ℂ) else 0) := by
  unfold Uinvmat
  rw [diagLoop_offdiag 1 (lt_trans hpq hq) (by omega),
    pairLoop_row_lt _ _ _ _ hpq hq, zero_add]

/-- Row description of `Uinv` for a row `di(p,q)` with `q < p`. -/
lemma Uinvmat_row_gt {n p q : ℕ} (hqp : q < p) (hp : p < n) (x : ℕ) :
    Uinvmat n (density_index n p q) x
      = (if x = density_index n q p then -(1 / 2 : ℂ) * Complex.I else 0)
        + (if x = density_index n p q then (1 / 2 : ℂ) * Complex.I else 0) := by
  unfold Uinvmat
  rw [diagLoop_offdiag 1 hp (by omega),
    pairLoop_row_gt _ _ _ _ hqp hp, zero_add]

/-- Multiplying a matrix whose row `a` is supported on two entries. -/
lemma matMul_row_two {m : ℕ} {A B : ℕ → ℕ → ℂ} {a c₁ c₂ : ℕ} {v₁ v₂ : ℂ}
    (h : ∀ x, A a x = (if x = c₁ then v₁ else 0) + (if x = c₂ then v₂ else 0))
    (h1 : c₁ < m) (h2 : c₂ < m) (b : ℕ) :
    matMulN m A B a b = v₁ * B c₁ b + v₂ * B c₂ b := by
  unfold matMulN
  simp only [h, add_mul, ite_mul, zero_mul, Finset.sum_add_distrib,
    Finset.sum_ite_eq', Finset.mem_range, h1, h2, if_true]

/-- Multiplying a matrix whose row `a` is supported on one entry. -/
lemma matMul_row_one {m : ℕ} {A B : ℕ → ℕ → ℂ} {a c : ℕ} {v : ℂ}
    (h : ∀ x, A a x = if x = c then v else 0) (hc : c < m) (b : ℕ) :
    matMulN m A B a b = v * B c b := by
  unfold matMulN
  simp only [h, ite_mul, zero_mul, Finset.sum_ite_eq', Finset.mem_range, hc,
    if_true]

lemma delta_comm (x y : ℕ) :
    (if x = y then (1 : ℂ) else 0) = if y = x then 1 else 0 := by
  by_cases h : x = y
  · rw [if_pos h, if_pos h.symm]
  · rw [if_neg h, if_neg fun hc => h hc.symm]

lemma UinvU_apply {n p q r s : ℕ} (hp : p < n) (hq : q < n) (hr : r < n)
    (hs : s < n) :
    matMulN (n * n) (Uinvmat n) (Umat n) (density_index n p q)
        (density_index n r s)
      = if density_index n p q = density_index n r s then 1 else 0 := by
  rw [← delta_comm (density_index n r s) (density_index n p q)]
  rcases lt_trichotomy p q with hlt | heq | hgt
  · rw [matMul_row_two (Uinvmat_row_lt hlt hq) (density_index_lt hp hq)
      (density_index_lt hq hp) _]
    rw [Umat_row_lt hlt hq, Umat_row_gt hlt hq]
    have hne : density_index n q p ≠ density_index n p q := by
      intro hd; rw [density_index_inj hq hp] at hd; omega
    have hne' : density_index n p q ≠ density_index n q p := fun hd => hne hd.symm
    by_cases hb1 : density_index n r s = density_index n p q
    · by_cases hb2 : density_index n r s = density_index n q p
      · exact absurd (hb2 ▸ hb1 : density_index n q p = density_index n p q) hne
      · simp only [hb1, if_pos rfl, hne', if_neg, if_false]
        norm_num
    · by_cases hb2 : density_index n r s = density_index n q p
      · simp only [hb2, if_pos rfl, hne, if_neg, if_false, hb1]
        simp [hne]
      · simp [hb1, hb2]
  · subst heq
    rw [matMul_row_one (Uinvmat_row_diag hp) (density_index_lt hp hp) _]
    rw [Umat_row_diag hp]
    by_cases hb : density_index n r s = density_index n p p
    · simp [hb]
    · simp [hb]
  · rw [matMul_row_two (Uinvmat_row_gt hgt hp) (density_index_lt hq hp)
      (density_index_lt hp hq) _]
    rw [Umat_row_lt hgt hp, Umat_row_gt hgt hp]
    have hne : density_index n q p ≠ density_index n p q := by
      intro hd; rw [density_index_inj hq hp] at hd; omega
    have hne' : density_index n p q ≠ density_index n q p := fun hd => hne hd.symm
    by_cases hb1 : density_index n r s = density_index n p q
    · by_cases hb2 : density_index n r s = density_index n q p
      · exact absurd (hb2 ▸ hb1 : density_index n q p = density_index n p q) hne
      · simp only [hb1, if_pos rfl, hne', hb2]
        simp [hne']
        ring_nf
        rw [Complex.I_sq]
        ring
    · by_cases hb2 : density_index n r s = density_index n q p
      · simp only [hb2, if_pos rfl]
        simp [hne, hb1]
      · simp [hb1, hb2]

lemma UUinv_apply {n p q r s : ℕ} (hp : p < n) (hq : q < n) (hr : r < n)
    (hs : s < n) :
    matMulN (n * n) (Umat n) (Uinvmat n) (density_index n p q)
        (density_index n r s)
      = if density_index n p q = density_index n r s then 1 else 0 := by
  rw [← delta_comm (density_index n r s) (density_index n p q)]
  rcases lt_trichotomy p q with hlt | heq | hgt
  · rw [matMul_row_two (Umat_row_lt hlt hq) (density_index_lt hp hq)
      (density_index_lt hq hp) _]
    rw [Uinvmat_row_lt hlt hq, Uinvmat_row_gt hlt hq]
    have hne : density_index n q p ≠ density_index n p q := by
      intro hd; rw [density_index_inj hq hp] at hd; omega
    have hne' : density_index n p q ≠ density_index n q p := fun hd => hne hd.symm
    by_cases hb1 : density_index n r s = density_index n p q
    · by_cases hb2 : density_index n r s = density_index n q p
      · exact absurd (hb2 ▸ hb1 : density_index n q p = density_index n p q) hne
      · simp only [hb1, if_pos rfl, hne']
        simp [hne']
        ring_nf
        rw [Complex.I_sq]
        ring
    · by_cases hb2 : density_index n r s = density_index n q p
      · simp only [hb2, if_pos rfl]
        simp [hne, hb1]
        ring_nf
        rw [Complex.I_sq]
        ring
      · simp [hb1, hb2]
  · subst heq
    rw [matMul_row_one (Umat_row_diag hp) (density_index_lt hp hp) _]
    rw [Uinvmat_row_diag hp]
    by_cases hb : density_index n r s = density_index n p p
    · simp [hb]
    · simp [hb]
  · rw [matMul_row_two (Umat_row_gt hgt hp) (density_index_lt hq hp)
      (density_index_lt hp hq) _]
    rw [Uinvmat_row_lt hgt hp, Uinvmat_row_gt hgt hp]
    have hne : density_index n q p ≠ density_index n p q := by
      intro hd; rw [density_index_inj hq hp] at hd; omega
    have hne' : density_index n p q ≠ density_index n q p := fun hd => hne hd.symm
    by_cases hb1 : density_index n r s = density_index n p q
    · by_cases hb2 : density_index n r s = density_index n q p
      · exact absurd (hb2 ▸ hb1 : density_index n q p = density_index n p q) hne
      · simp only [hb1, if_pos rfl, hne']
        simp [hne']
        ring_nf
        rw [Complex.I_sq]
        ring
    · by_cases hb2 : density_index n r s = density_index n q p
      · simp only [hb2, if_pos rfl]
        simp [hne, hb1]
        ring_nf
        rw [Complex.I_sq]
        ring
      · simp [hb1, hb2]

lemma density_index_mod_div (n a : ℕ) :
    density_index n (a % n) (a / n) = a := by
  unfold density_index
  rw [Nat.mul_comm (a / n) n]
  exact Nat.mod_add_div a n

/-- C6: for every state count `n ≥ 1`, the lazily built real-basis
change-of-basis matrices satisfy `Uinv·U = U·Uinv = I` on the
`n²`-dimensional flattened density space (the transform `M ↦ Uinv·M·U` is
invertible and self-consistent). -/
theorem C6_transform_matrices_inverse (n : ℕ) (h : 1 ≤ n) :
    (∀ a b : Fin (n * n),
      matMulN (n * n) (Uinvmat n) (Umat n) a b
        = if (a : ℕ) = b then 1 else 0)
    ∧ ∀ a b : Fin (n * n),
      matMulN (n * n) (Umat n) (Uinvmat n) a b
        = if (a : ℕ) = b then 1 else 0 := by
  have hn : 0 < n := h
  constructor
  · intro a b
    have ha := density_index_mod_div n (a : ℕ)
    have hb := density_index_mod_div n (b : ℕ)
    rw [← ha, ← hb]
    exact UinvU_apply (Nat.mod_lt _ hn)
      (Nat.div_lt_of_lt_mul (by have := a.isLt; omega))
      (Nat.mod_lt _ hn)
      (Nat.div_lt_of_lt_mul (by have := b.isLt; omega))
  · intro a b
    have ha := density_index_mod_div n (a : ℕ)
    have hb := density_index_mod_div n (b : ℕ)
    rw [← ha, ← hb]
    exact UUinv_apply (Nat.mod_lt _ hn)
      (Nat.div_lt_of_lt_mul (by have := a.isLt; omega))
      (Nat.mod_lt _ hn)
      (Nat.div_lt_of_lt_mul (by have := b.isLt; omega))

/-- Witness for C6 at `n = 2`. -/
theorem C6_transform_matrices_inverse_witness :
    (1 ≤ 2)
    ∧ ((∀ a b : Fin (2 * 2),
        matMulN (2 * 2) (Uinvmat 2) (Umat 2) a b
          = if (a : ℕ) = b then 1 else 0)
      ∧ ∀ a b : Fin (2 * 2),
        matMulN (2 * 2) (Umat 2) (Uinvmat 2) a b
          = if (a : ℕ) = b then 1 else 0) :=
  ⟨by norm_num, C6_transform_matrices_inverse 2 (by norm_num)⟩

/-! ### Manifold bookkeeping and the decay evolution matrix
(source `obe.build_decay_ev`) -/

/-- Start offset of manifold `l` in the global state index: `sum(ns[:l])`. -/
def offs (ns : List ℕ) (l : ℕ) : ℕ := (ns.take l).sum

/-- The states of manifold `l`:
`range(sum(self.hamiltonian.ns[:ll]), sum(self.hamiltonian.ns[:ll+1]))`. -/
def manifoldF (ns : List ℕ) (l : ℕ) : Finset ℕ :=
  Finset.Ico (offs ns l) (offs ns (l + 1))

lemma offs_zero (ns : List ℕ) : offs ns 0 = 0 := rfl

lemma offs_succ_le (ns : List ℕ) (l : ℕ) : offs ns l ≤ offs ns (l + 1) := by
  by_cases h : l < ns.length
  · unfold offs
    rw [List.sum_take_succ _ _ h]
    omega
  · unfold offs
    rw [List.take_of_length_le (by omega), List.take_of_length_le (by omega)]

lemma offs_mono (ns : List ℕ) : Monotone (offs ns) :=
  monotone_nat_of_le_succ (offs_succ_le ns)

lemma offs_length (ns : List ℕ) : offs ns ns.length = ns.sum := by
  unfold offs
  rw [List.take_of_length_le (le_refl _)]

lemma offs_of_length_le (ns : List ℕ) {m : ℕ} (h : ns.length ≤ m) :
    offs ns m = ns.sum := by
  unfold offs
  rw [List.take_of_length_le h]

lemma offs_le_sum (ns : List ℕ) (m : ℕ) : offs ns m ≤ ns.sum := by
  unfold offs
  conv_rhs => rw [← List.take_append_drop m ns]
  rw [List.sum_append]
  omega

/-- The (unique) manifold containing state `c` (for `c < sum ns`): the least
`l` such that `c < offs ns (l+1)`. -/
def manOf (ns : List ℕ) (c : ℕ) : ℕ :=
  Nat.find (⟨ns.length, Or.inr (Nat.le_succ _)⟩ :
    ∃ l, c < offs ns (l + 1) ∨ ns.length ≤ l + 1)

lemma manOf_spec (ns : List ℕ) (c : ℕ) :
    c < offs ns (manOf ns c + 1) ∨ ns.length ≤ manOf ns c + 1 := by
  have h : ∃ l, c < offs ns (l + 1) ∨ ns.length ≤ l + 1 :=
    ⟨ns.length, Or.inr (Nat.le_succ _)⟩
  have he : manOf ns c = Nat.find h := rfl
  rw [he]
  exact Nat.find_spec h

lemma manOf_min (ns : List ℕ) (c : ℕ) {l : ℕ} (hl : l < manOf ns c) :
    ¬ (c < offs ns (l + 1) ∨ ns.length ≤ l + 1) := by
  have h : ∃ l, c < offs ns (l + 1) ∨ ns.length ≤ l + 1 :=
    ⟨ns.length, Or.inr (Nat.le_succ _)⟩
  have he : manOf ns c = Nat.find h := rfl
  rw [he] at hl
  exact Nat.find_min h hl

lemma manOf_lt_offs_succ (ns : List ℕ) {c : ℕ} (hc : c < ns.sum) :
    c < offs ns (manOf ns c + 1) := by
  rcases manOf_spec ns c with h | h
  · exact h
  · rw [offs_of_length_le ns h]
    exact hc

lemma manOf_le (ns : List ℕ) {c : ℕ} : manOf ns c ≤ ns.length :=
  Nat.find_le (Or.inr (by omega))

lemma manOf_lt_length (ns : List ℕ) {c : ℕ} (hc : c < ns.sum) :
    manOf ns c < ns.length := by
  have hlen : 1 ≤ ns.length := by
    by_contra h
    have : ns = [] := List.eq_nil_of_length_eq_zero (by omega)
    subst this
    simp at hc
  have h1 : manOf ns c ≤ ns.length - 1 := by
    apply Nat.find_le
    left
    have : ns.length - 1 + 1 = ns.length := by omega
    rw [this, offs_length]
    exact hc
  omega

lemma offs_manOf_le (ns : List ℕ) {c : ℕ} (hc : c < ns.sum) :
    offs ns (manOf ns c) ≤ c := by
  rcases Nat.eq_zero_or_pos (manOf ns c) with h0 | h0
  · rw [h0, offs_zero]; omega
  · have hmin := manOf_min ns c (show manOf ns c - 1 < manOf ns c by omega)
    push_neg at hmin
    have : manOf ns c - 1 + 1 = manOf ns c := by omega
    rw [this] at hmin
    omega

/-- `offs (l+1) ≤ c` iff manifold `l` lies strictly below the manifold of
`c`. -/
lemma offs_succ_le_iff (ns : List ℕ) {c : ℕ} (hc : c < ns.sum) (l : ℕ) :
    offs ns (l + 1) ≤ c ↔ l < manOf ns c := by
  constructor
  · intro h
    by_contra hml
    push_neg at hml
    have h2 : offs ns (manOf ns c + 1) ≤ offs ns (l + 1) :=
      offs_mono ns (by omega)
    have h3 := manOf_lt_offs_succ ns hc
    omega
  · intro h
    have hmin := manOf_min ns c h
    push_neg at hmin
    omega

lemma mem_manifoldF_iff (ns : List ℕ) {c : ℕ} (hc : c < ns.sum) (l : ℕ) :
    c ∈ manifoldF ns l ↔ l = manOf ns c := by
  unfold manifoldF
  rw [Finset.mem_Ico]
  constructor
  · rintro ⟨h1, h2⟩
    rcases lt_trichotomy l (manOf ns c) with h | h | h
    · exfalso
      rw [← offs_succ_le_iff ns hc] at h
      omega
    · exact h
    · exfalso
      have : offs ns (manOf ns c + 1) ≤ offs ns l := offs_mono ns (by omega)
      have h3 := manOf_lt_offs_succ ns hc
      omega
  · rintro rfl
    exact ⟨offs_manOf_le ns hc, manOf_lt_offs_succ ns hc⟩

/-- Partition of the states below `offs L` into manifolds `0, …, L−1`. -/
lemma sum_manifolds_eq {M : Type*} [AddCommMonoid M] (ns : List ℕ) (L : ℕ)
    (f : ℕ → M) :
    ∑ l ∈ Finset.range L, ∑ i ∈ manifoldF ns l, f i
      = ∑ i ∈ Finset.range (offs ns L), f i := by
  induction L with
  | zero => simp [offs_zero]
  | succ L ih =>
    rw [Finset.sum_range_succ, ih]
    unfold manifoldF
    rw [Finset.range_eq_Ico]
    exact Finset.sum_Ico_consecutive f (Nat.zero_le _)
      (offs_succ_le ns L)

/-- Source `abs2` summed as in
`rates = [np.sum(np.sum(abs2(d_q[:, :ii, ii]))) for ii in this_manifold]`:
the total decay rate of state `ii` is the sum over the 3 spherical components
and all lower-indexed states of the squared magnitudes of the aggregated
dipole matrix elements. -/
def stateRate (d : Fin 3 → ℕ → ℕ → ℂ) (ii : ℕ) : ℝ :=
  ∑ q : Fin 3, ∑ jj ∈ Finset.range ii, Complex.normSq (d q jj ii)

/-- `rate = np.mean(rates)` over the states of manifold `l`. -/
def rateMean (ns : List ℕ) (d : Fin 3 → ℕ → ℕ → ℂ) (l : ℕ) : ℝ :=
  (∑ ii ∈ manifoldF ns l, stateRate d ii) / (manifoldF ns l).card

/-- `decay_rates` array: zero-initialised, entry `ll ≥ 1` set to the manifold
mean rate. -/
def decayRates (ns : List ℕ) (d : Fin 3 → ℕ → ℕ → ℂ) (l : ℕ) : ℝ :=
  if l = 0 then 0 else rateMean ns d l

/-- `np.allclose(rates, rate, atol=1e-7, rtol=1e-5)` for manifold `l`:
every element satisfies `|a − b| ≤ atol + rtol·|b|`. -/
def rates_allclose (ns : List ℕ) (d : Fin 3 → ℕ → ℕ → ℂ) (l : ℕ) : Prop :=
  ∀ ii ∈ manifoldF ns l,
    |stateRate d ii - rateMean ns d l| ≤ 1e-7 + 1e-5 * |rateMean ns d l|

/-- Source `build_decay_ev` raises `ValueError` (aborting construction before
any decay matrix is produced) iff the rate check fails for some manifold
`ll ∈ range(1, K)`; nothing else in the construction can raise. -/
def build_decay_ev_raises (ns : List ℕ) (d : Fin 3 → ℕ → ℕ → ℂ) : Prop :=
  ∃ l ∈ Finset.Ico 1 ns.length, ¬ rates_allclose ns d l

/-- C5: `build_decay_ev` raises an error (construction aborts, no decay
matrix is produced) if and only if some manifold above the lowest contains
states whose total decay rates — each the sum over the 3 spherical components
and all lower-indexed states of the squared magnitudes of the aggregated
dipole matrix elements — are not all equal to their mean within relative
tolerance 1e-5 and absolute tolerance 1e-7. -/
theorem C5_decay_check_raises_iff (ns : List ℕ) (d : Fin 3 → ℕ → ℕ → ℂ) :
    build_decay_ev_raises ns d
      ↔ ∃ l, 1 ≤ l ∧ l < ns.length
          ∧ ∃ ii, offs ns l ≤ ii ∧ ii < offs ns (l + 1)
          ∧ ¬ (|(∑ q : Fin 3, ∑ jj ∈ Finset.range ii,
                  Complex.normSq (d q jj ii))
                - (∑ kk ∈ Finset.Ico (offs ns l) (offs ns (l + 1)),
                    ∑ q : Fin 3, ∑ jj ∈ Finset.range kk,
                      Complex.normSq (d q jj kk))
                  / ((offs ns (l + 1) : ℝ) - offs ns l)|
              ≤ 1e-7 + 1e-5
                * |(∑ kk ∈ Finset.Ico (offs ns l) (offs ns (l + 1)),
                    ∑ q : Fin 3, ∑ jj ∈ Finset.range kk,
                      Complex.normSq (d q jj kk))
                  / ((offs ns (l + 1) : ℝ) - offs ns l)|) := by
  have hcard : ∀ l : ℕ, ((manifoldF ns l).card : ℝ)
      = (offs ns (l + 1) : ℝ) - offs ns l := by
    intro l
    unfold manifoldF
    rw [Nat.card_Ico, Nat.cast_sub (offs_succ_le ns l)]
  unfold build_decay_ev_raises rates_allclose rateMean stateRate manifoldF
  constructor
  · rintro ⟨l, hl, hfail⟩
    rw [Finset.mem_Ico] at hl
    push_neg at hfail
    rcases hfail with ⟨ii, hii, hval⟩
    rw [Finset.mem_Ico] at hii
    refine ⟨l, hl.1, hl.2, ii, hii.1, hii.2, ?_⟩
    have hc := hcard l
    unfold manifoldF at hc
    rw [← hc]
    exact not_le.mpr hval
  · rintro ⟨l, h1, h2, ii, h3, h4, hval⟩
    refine ⟨l, Finset.mem_Ico.mpr ⟨h1, h2⟩, ?_⟩
    intro hall
    have := hall ii (Finset.mem_Ico.mpr ⟨h3, h4⟩)
    have hc := hcard l
    unfold manifoldF at hc
    rw [← hc] at hval
    exact hval this

/-! ### The decay evolution matrix itself

The three loop families of `build_decay_ev` write into pairwise-disjoint
cells: the feeding loop accumulates only into cells whose row index is a
lower-manifold pair and whose column index is a higher-manifold pair (so row
≠ column), while the two loss loops assign (once each) only diagonal cells
`(x, x)`, the within-manifold loop to same-manifold pairs and the
cross-manifold loop to cross-manifold pairs.  Hence the final matrix equals
the sum of the three families.  In the source the innermost feeding loop
variable shadows the outer `ll`; it is renamed `mm` here (the shadowing is
harmless because `this_manifold` and `all_higher_manifolds` are computed
before it). -/

/-- Feeding terms: for each lower manifold `l`, states `ii, jj ∈ l` and
`kk, mm` in all higher manifolds, accumulate `d_q[q,ii,kk]*d_q[q,mm,jj]` at
`(di(ii,jj), di(kk,mm))`. -/
def decay_feed (ns : List ℕ) (d : Fin 3 → ℕ → ℕ → ℂ) : ℕ → ℕ → ℂ :=
  fun a b =>
    ∑ l ∈ Finset.range (ns.length - 1), ∑ ii ∈ manifoldF ns l,
      ∑ jj ∈ manifoldF ns l,
        ∑ kk ∈ Finset.Ico (offs ns (l + 1)) ns.sum,
          ∑ mm ∈ Finset.Ico (offs ns (l + 1)) ns.sum, ∑ q : Fin 3,
            if a = density_index ns.sum ii jj
                ∧ b = density_index ns.sum kk mm then
              d q ii kk * d q mm jj else 0

/-- Within-manifold loss: every population/coherence `(ii,jj)` inside a
manifold `l ≥ 1` decays at the manifold rate (diagonal assignment
`-decay_rates[l]`). -/
def decay_loss_within (ns : List ℕ) (d : Fin 3 → ℕ → ℕ → ℂ) : ℕ → ℕ → ℂ :=
  fun a b =>
    ∑ l ∈ Finset.Ico 1 ns.length, ∑ ii ∈ manifoldF ns l,
      ∑ jj ∈ manifoldF ns l,
        if a = density_index ns.sum ii jj
            ∧ b = density_index ns.sum ii jj then
          -((decayRates ns d l : ℝ) : ℂ) else 0

/-- Cross-manifold coherence damping at the average of the two manifolds'
rates (diagonal assignment to both `(ii,jj)` and `(jj,ii)` cells). -/
def decay_loss_cross (ns : List ℕ) (d : Fin 3 → ℕ → ℕ → ℂ) : ℕ → ℕ → ℂ :=
  fun a b =>
    ∑ l ∈ Finset.range (ns.length - 1), ∑ m ∈ Finset.Ico (l + 1) ns.length,
      ∑ ii ∈ manifoldF ns l, ∑ jj ∈ manifoldF ns m,
        ((if a = density_index ns.sum ii jj
            ∧ b = density_index ns.sum ii jj then
            -((((decayRates ns d l + decayRates ns d m) / 2 : ℝ)) : ℂ) else 0)
          + (if a = density_index ns.sum jj ii
            ∧ b = density_index ns.sum jj ii then
            -((((decayRates ns d l + decayRates ns d m) / 2 : ℝ)) : ℂ) else 0))

/-- The assembled decay evolution matrix (source `obe.build_decay_ev`, after
the rate check has passed). -/
def build_decay_ev (ns : List ℕ) (d : Fin 3 → ℕ → ℕ → ℂ) : ℕ → ℕ → ℂ :=
  fun a b => decay_feed ns d a b + decay_loss_within ns d a b
    + decay_loss_cross ns d a b

lemma mem_manifoldF_lt_sum {ns : List ℕ} {l x : ℕ} (h : x ∈ manifoldF ns l) :
    x < ns.sum := by
  unfold manifoldF at h
  rw [Finset.mem_Ico] at h
  exact lt_of_lt_of_le h.2 (offs_le_sum ns (l + 1))

lemma filter_range_Ico {a b n : ℕ} (h : b ≤ n) :
    (Finset.range n).filter (fun i => a ≤ i ∧ i < b) = Finset.Ico a b := by
  ext x
  simp only [Finset.mem_filter, Finset.mem_range, Finset.mem_Ico]
  omega

lemma filter_range_lt {K N : ℕ} (h : K ≤ N) :
    (Finset.range N).filter (fun l => l < K) = Finset.range K := by
  ext x
  simp only [Finset.mem_filter, Finset.mem_range]
  omega

/-- Diagonal-row column sum of the feeding terms: the total feed from column
`(c,e)` into the populations. -/
lemma feed_trace (ns : List ℕ) (d : Fin 3 → ℕ → ℕ → ℂ) {c e : ℕ}
    (hc : c < ns.sum) (he : e < ns.sum) :
    ∑ i ∈ Finset.range ns.sum,
        decay_feed ns d (density_index ns.sum i i) (density_index ns.sum c e)
      = ∑ i ∈ Finset.range (offs ns (min (manOf ns c) (manOf ns e))),
          ∑ q : Fin 3, d q i c * d q e i := by
  unfold decay_feed
  have step : ∀ i ∈ Finset.range ns.sum, ∀ l ∈ Finset.range (ns.length - 1),
      (∑ ii ∈ manifoldF ns l, ∑ jj ∈ manifoldF ns l,
        ∑ kk ∈ Finset.Ico (offs ns (l + 1)) ns.sum,
          ∑ mm ∈ Finset.Ico (offs ns (l + 1)) ns.sum, ∑ q : Fin 3,
            if density_index ns.sum i i = density_index ns.sum ii jj
                ∧ density_index ns.sum c e = density_index ns.sum kk mm then
              d q ii kk * d q mm jj else 0)
      = if (offs ns (l + 1) ≤ c ∧ offs ns (l + 1) ≤ e)
          ∧ (offs ns l ≤ i ∧ i < offs ns (l + 1)) then
          ∑ q : Fin 3, d q i c * d q e i else 0 := by
    intro i hi l _
    rw [Finset.mem_range] at hi
    have hcongr : ∀ ii ∈ manifoldF ns l, ∀ jj ∈ manifoldF ns l,
        ∀ kk ∈ Finset.Ico (offs ns (l + 1)) ns.sum,
        ∀ mm ∈ Finset.Ico (offs ns (l + 1)) ns.sum, ∀ q : Fin 3,
        (if density_index ns.sum i i = density_index ns.sum ii jj
            ∧ density_index ns.sum c e = density_index ns.sum kk mm then
          d q ii kk * d q mm jj else 0)
        = if ii = i ∧ jj = i ∧ kk = c ∧ mm = e then
            d q ii kk * d q mm jj else 0 := by
      intro ii hii jj hjj kk hkk mm hmm q
      have hii' : ii < ns.sum := mem_manifoldF_lt_sum hii
      have hkk' : kk < ns.sum := by
        rw [Finset.mem_Ico] at hkk; exact hkk.2
      refine if_congr ?_ rfl rfl
      rw [density_index_inj hi hii', density_index_inj hc hkk']
      constructor
      · rintro ⟨⟨rfl, rfl⟩, rfl, rfl⟩; exact ⟨rfl, rfl, rfl, rfl⟩
      · rintro ⟨rfl, rfl, rfl, rfl⟩; exact ⟨⟨rfl, rfl⟩, rfl, rfl⟩
    rw [Finset.sum_congr rfl fun ii hii => Finset.sum_congr rfl fun jj hjj =>
      Finset.sum_congr rfl fun kk hkk => Finset.sum_congr rfl fun mm hmm =>
        Finset.sum_congr rfl fun q _ => hcongr ii hii jj hjj kk hkk mm hmm q]
    have hsumq : ∀ ii jj kk mm : ℕ,
        (∑ q : Fin 3, if ii = i ∧ jj = i ∧ kk = c ∧ mm = e then
          d q ii kk * d q mm jj else 0)
        = if ii = i ∧ jj = i ∧ kk = c ∧ mm = e then
            ∑ q : Fin 3, d q ii kk * d q mm jj else 0 := by
      intro ii jj kk mm
      split_ifs <;> simp
    rw [Finset.sum_congr rfl fun ii _ => Finset.sum_congr rfl fun jj _ =>
      Finset.sum_congr rfl fun kk _ => Finset.sum_congr rfl fun mm _ =>
        hsumq ii jj kk mm]
    simp only [ite_and, Finset.sum_ite_irrel, Finset.sum_const_zero,
      Finset.sum_ite_eq', Finset.mem_Ico]
    unfold manifoldF
    simp only [Finset.mem_Ico, hc, he, and_true, true_and]
    split_ifs <;> first | rfl | omega
  rw [Finset.sum_congr rfl fun i hi => Finset.sum_congr rfl fun l hl =>
    step i hi l hl]
  rw [Finset.sum_comm]
  have hKlen : min (manOf ns c) (manOf ns e) ≤ ns.length - 1 := by
    have h1 := manOf_lt_length ns hc
    have h2 := manOf_lt_length ns he
    omega
  have hstep2 : ∀ l ∈ Finset.range (ns.length - 1),
      (∑ i ∈ Finset.range ns.sum,
        if (offs ns (l + 1) ≤ c ∧ offs ns (l + 1) ≤ e)
            ∧ (offs ns l ≤ i ∧ i < offs ns (l + 1)) then
          ∑ q : Fin 3, d q i c * d q e i else 0)
      = if l < min (manOf ns c) (manOf ns e) then
          ∑ i ∈ manifoldF ns l, ∑ q : Fin 3, d q i c * d q e i else 0 := by
    intro l _
    have hcnd : (offs ns (l + 1) ≤ c ∧ offs ns (l + 1) ≤ e)
        ↔ l < min (manOf ns c) (manOf ns e) := by
      rw [offs_succ_le_iff ns hc, offs_succ_le_iff ns he]
      omega
    by_cases hP : offs ns (l + 1) ≤ c ∧ offs ns (l + 1) ≤ e
    · simp only [hP, true_and]
      rw [← Finset.sum_filter, filter_range_Ico (offs_le_sum ns (l + 1)),
        if_pos (hcnd.mp hP)]
      rfl
    · simp only [hP, false_and, if_false, Finset.sum_const_zero]
      rw [if_neg (fun hlt => hP (hcnd.mpr hlt))]
  rw [Finset.sum_congr rfl hstep2]
  rw [← Finset.sum_filter, filter_range_lt hKlen]
  exact sum_manifolds_eq ns _ _

/-- Diagonal-row column sum of the within-manifold loss terms. -/
lemma lw_trace (ns : List ℕ) (d : Fin 3 → ℕ → ℕ → ℂ) {c e : ℕ}
    (hc : c < ns.sum) (he : e < ns.sum) :
    ∑ i ∈ Finset.range ns.sum,
        decay_loss_within ns d (density_index ns.sum i i)
          (density_index ns.sum c e)
      = if c = e ∧ 1 ≤ manOf ns c then
          -((decayRates ns d (manOf ns c) : ℝ) : ℂ) else 0 := by
  unfold decay_loss_within
  have step : ∀ i ∈ Finset.range ns.sum, ∀ l ∈ Finset.Ico 1 ns.length,
      (∑ ii ∈ manifoldF ns l, ∑ jj ∈ manifoldF ns l,
        if density_index ns.sum i i = density_index ns.sum ii jj
            ∧ density_index ns.sum c e = density_index ns.sum ii jj then
          -((decayRates ns d l : ℝ) : ℂ) else 0)
      = if i = c ∧ i = e ∧ (offs ns l ≤ i ∧ i < offs ns (l + 1)) then
          -((decayRates ns d l : ℝ) : ℂ) else 0 := by
    intro i hi l _
    rw [Finset.mem_range] at hi
    have hcongr : ∀ ii ∈ manifoldF ns l, ∀ jj ∈ manifoldF ns l,
        (if density_index ns.sum i i = density_index ns.sum ii jj
            ∧ density_index ns.sum c e = density_index ns.sum ii jj then
          -((decayRates ns d l : ℝ) : ℂ) else 0)
        = if ii = i ∧ jj = i ∧ i = c ∧ i = e then
            -((decayRates ns d l : ℝ) : ℂ) else 0 := by
      intro ii hii jj hjj
      have hii' : ii < ns.sum := mem_manifoldF_lt_sum hii
      refine if_congr ?_ rfl rfl
      rw [density_index_inj hi hii', density_index_inj hc hii']
      omega
    rw [Finset.sum_congr rfl fun ii hii => Finset.sum_congr rfl fun jj hjj =>
      hcongr ii hii jj hjj]
    simp only [ite_and, Finset.sum_ite_irrel, Finset.sum_const_zero,
      Finset.sum_ite_eq']
    unfold manifoldF
    simp only [Finset.mem_Ico]
    split_ifs <;> first | rfl | omega
  rw [Finset.sum_congr rfl fun i hi => Finset.sum_congr rfl fun l hl =>
    step i hi l hl]
  rw [Finset.sum_eq_single_of_mem c (Finset.mem_range.mpr hc)]
  · by_cases hce : c = e
    · subst hce
      have hcongr2 : ∀ l ∈ Finset.Ico 1 ns.length,
          (if c = c ∧ c = c ∧ (offs ns l ≤ c ∧ c < offs ns (l + 1)) then
            -((decayRates ns d l : ℝ) : ℂ) else 0)
          = if l = manOf ns c then -((decayRates ns d l : ℝ) : ℂ) else 0 := by
        intro l _
        refine if_congr ?_ rfl rfl
        have := mem_manifoldF_iff ns hc l
        unfold manifoldF at this
        rw [Finset.mem_Ico] at this
        rw [← this]
        omega
      rw [Finset.sum_congr rfl hcongr2, Finset.sum_ite_eq']
      simp only [Finset.mem_Ico]
      have hml := manOf_lt_length ns hc
      have hsimp : (True ∧ 1 ≤ manOf ns c)
          ↔ (1 ≤ manOf ns c ∧ manOf ns c < ns.length) := by
        constructor
        · rintro ⟨-, h⟩; exact ⟨h, hml⟩
        · rintro ⟨h, -⟩; exact ⟨trivial, h⟩
      exact if_congr hsimp.symm rfl rfl
    · have hz : ∀ l ∈ Finset.Ico 1 ns.length,
          (if c = c ∧ c = e ∧ (offs ns l ≤ c ∧ c < offs ns (l + 1)) then
            -((decayRates ns d l : ℝ) : ℂ) else 0) = 0 := by
        intro l _
        rw [if_neg]
        rintro ⟨-, h2, -⟩
        exact hce h2
      rw [Finset.sum_eq_zero hz, if_neg]
      rintro ⟨h1, -⟩
      exact hce h1
  · intro i _ hne
    apply Finset.sum_eq_zero
    intro l _
    rw [if_neg]
    rintro ⟨h1, -⟩
    exact hne h1

/-- The cross-manifold loss terms never touch diagonal rows. -/
lemma lc_trace (ns : List ℕ) (d : Fin 3 → ℕ → ℕ → ℂ) (b : ℕ) :
    ∑ i ∈ Finset.range ns.sum,
        decay_loss_cross ns d (density_index ns.sum i i) b = 0 := by
  apply Finset.sum_eq_zero
  intro i hi
  rw [Finset.mem_range] at hi
  unfold decay_loss_cross
  apply Finset.sum_eq_zero
  intro l hl
  apply Finset.sum_eq_zero
  intro m hm
  apply Finset.sum_eq_zero
  intro ii hii
  apply Finset.sum_eq_zero
  intro jj hjj
  rw [Finset.mem_Ico] at hm
  have hii' : ii < ns.sum := mem_manifoldF_lt_sum hii
  have hjj' : jj < ns.sum := mem_manifoldF_lt_sum hjj
  have hij : ii < jj := by
    unfold manifoldF at hii hjj
    rw [Finset.mem_Ico] at hii hjj
    have := offs_mono ns (show l + 1 ≤ m by omega)
    omega
  have e1 : ¬ (density_index ns.sum i i = density_index ns.sum ii jj
      ∧ b = density_index ns.sum ii jj) := by
    rintro ⟨h1, -⟩
    rw [density_index_inj hi hii'] at h1
    omega
  have e2 : ¬ (density_index ns.sum i i = density_index ns.sum jj ii
      ∧ b = density_index ns.sum jj ii) := by
    rintro ⟨h1, -⟩
    rw [density_index_inj hi hjj'] at h1
    omega
  rw [if_neg e1, if_neg e2, add_zero]

/-- `M` conserves the trace of the density matrix: for every column in the
flattened range, the entries in the `n` diagonal rows `di(i,i)` sum to
zero. -/
def conservesTrace (n : ℕ) (M : ℕ → ℕ → ℂ) : Prop :=
  ∀ b ∈ Finset.range (n * n),
    ∑ i ∈ Finset.range n, M (density_index n i i) b = 0

lemma conservesTrace_mulVec {n : ℕ} {M : ℕ → ℕ → ℂ} (h : conservesTrace n M)
    (ρ : ℕ → ℂ) :
    ∑ i ∈ Finset.range n, mulVecN (n * n) M ρ (density_index n i i) = 0 := by
  unfold mulVecN
  rw [Finset.sum_comm]
  apply Finset.sum_eq_zero
  intro b hb
  rw [← Finset.sum_mul, h b hb, zero_mul]

/-- Every coherent-evolution matrix conserves the trace (the trace of a
commutator vanishes). -/
lemma conservesTrace_coherent (n : ℕ) (H : ℕ → ℕ → ℂ) :
    conservesTrace n (build_coherent_ev_submatrix n H) := by
  intro b hb
  rw [Finset.mem_range] at hb
  have hn : 0 < n := by
    rcases Nat.eq_zero_or_pos n with h | h
    · subst h; simp at hb
    · exact h
  have hbm : b % n < n := Nat.mod_lt _ hn
  have hbd : b / n < n := Nat.div_lt_of_lt_mul hb
  rw [← density_index_mod_div n b]
  rw [Finset.sum_congr rfl fun i hi =>
    build_coherent_ev_apply H (Finset.mem_range.mp hi)
      (Finset.mem_range.mp hi) hbm hbd]
  simp only [Finset.sum_sub_distrib, Finset.sum_ite_eq', Finset.mem_range,
    hbm, hbd, if_true, sub_self]

lemma conservesTrace_add {n : ℕ} {M N : ℕ → ℕ → ℂ}
    (hM : conservesTrace n M) (hN : conservesTrace n N) :
    conservesTrace n (fun a b => M a b + N a b) := by
  intro b hb
  rw [Finset.sum_add_distrib, hM b hb, hN b hb, add_zero]

lemma conservesTrace_smul {n : ℕ} {M : ℕ → ℕ → ℂ} (z : ℂ)
    (hM : conservesTrace n M) :
    conservesTrace n (fun a b => z * M a b) := by
  intro b hb
  rw [← Finset.mul_sum, hM b hb, mul_zero]

lemma conservesTrace_sub {n : ℕ} {M N : ℕ → ℕ → ℂ}
    (hM : conservesTrace n M) (hN : conservesTrace n N) :
    conservesTrace n (fun a b => M a b - N a b) := by
  intro b hb
  rw [Finset.sum_sub_distrib, hM b hb, hN b hb, sub_zero]

/-- Trace conservation of the decay matrix, under the hypotheses that
(i) the aggregated dipole operator is componentwise Hermitian,
(ii) it has no matrix elements inside a single manifold,
(iii) every state's total decay rate equals its manifold's mean exactly, and
(iv) decay amplitudes from two distinct states into the manifolds below both
do not overlap. -/
lemma conservesTrace_decay (ns : List ℕ) (d : Fin 3 → ℕ → ℕ → ℂ)
    (hherm : ∀ q : Fin 3, ∀ i j : ℕ, i < ns.sum → j < ns.sum →
      d q j i = starRingEnd ℂ (d q i j))
    (hblock : ∀ q : Fin 3, ∀ i j : ℕ, i < ns.sum → j < ns.sum →
      manOf ns i = manOf ns j → d q i j = 0)
    (hrate : ∀ ii : ℕ, ii < ns.sum → 1 ≤ manOf ns ii →
      stateRate d ii = rateMean ns d (manOf ns ii))
    (hoverlap : ∀ c e : ℕ, c < ns.sum → e < ns.sum → c ≠ e →
      (∑ i ∈ Finset.range (offs ns (min (manOf ns c) (manOf ns e))),
        ∑ q : Fin 3, d q i c * d q e i) = 0) :
    conservesTrace ns.sum (build_decay_ev ns d) := by
  intro b hb
  rw [Finset.mem_range] at hb
  have hn : 0 < ns.sum := by
    rcases Nat.eq_zero_or_pos ns.sum with h | h
    · rw [h] at hb; simp at hb
    · exact h
  have hc : b % ns.sum < ns.sum := Nat.mod_lt _ hn
  have he : b / ns.sum < ns.sum := Nat.div_lt_of_lt_mul hb
  rw [← density_index_mod_div ns.sum b]
  unfold build_decay_ev
  simp only [Finset.sum_add_distrib]
  rw [feed_trace ns d hc he, lw_trace ns d hc he,
    lc_trace ns d (density_index ns.sum (b % ns.sum) (b / ns.sum))]
  by_cases hce : b % ns.sum = b / ns.sum
  · rw [← hce, min_self]
    by_cases hm : 1 ≤ manOf ns (b % ns.sum)
    · rw [if_pos ⟨rfl, hm⟩]
      have hfeed : (∑ i ∈ Finset.range (offs ns (manOf ns (b % ns.sum))),
          ∑ q : Fin 3, d q i (b % ns.sum) * d q (b % ns.sum) i)
          = ((stateRate d (b % ns.sum) : ℝ) : ℂ) := by
        have h1 : ∀ i ∈ Finset.range (offs ns (manOf ns (b % ns.sum))),
            (∑ q : Fin 3, d q i (b % ns.sum) * d q (b % ns.sum) i)
            = ∑ q : Fin 3,
                ((Complex.normSq (d q i (b % ns.sum)) : ℝ) : ℂ) := by
          intro i hi
          rw [Finset.mem_range] at hi
          have hisum : i < ns.sum :=
            lt_of_lt_of_le hi (offs_le_sum ns _)
          refine Finset.sum_congr rfl fun q _ => ?_
          rw [hherm q i (b % ns.sum) hisum hc]
          exact Complex.mul_conj _
        rw [Finset.sum_congr rfl h1]
        have hsr : stateRate d (b % ns.sum)
            = ∑ i ∈ Finset.range (offs ns (manOf ns (b % ns.sum))),
                ∑ q : Fin 3, Complex.normSq (d q i (b % ns.sum)) := by
          unfold stateRate
          rw [Finset.sum_comm]
          rw [Finset.range_eq_Ico, ← Finset.sum_Ico_consecutive _
            (Nat.zero_le (offs ns (manOf ns (b % ns.sum))))
            (offs_manOf_le ns hc)]
          have hz : (∑ i ∈ Finset.Ico (offs ns (manOf ns (b % ns.sum)))
              (b % ns.sum), ∑ q : Fin 3,
                Complex.normSq (d q i (b % ns.sum))) = 0 := by
            apply Finset.sum_eq_zero
            intro i hi
            rw [Finset.mem_Ico] at hi
            have hi' : i < ns.sum := lt_trans hi.2 hc
            have hmem : i ∈ manifoldF ns (manOf ns (b % ns.sum)) := by
              unfold manifoldF
              rw [Finset.mem_Ico]
              exact ⟨hi.1, lt_trans hi.2 (manOf_lt_offs_succ ns hc)⟩
            have hmani : manOf ns i = manOf ns (b % ns.sum) :=
              ((mem_manifoldF_iff ns hi' _).mp hmem).symm
            apply Finset.sum_eq_zero
            intro q _
            rw [hblock q i (b % ns.sum) hi' hc hmani]
            simp
          rw [hz, add_zero, ← Finset.range_eq_Ico]
        rw [hsr]
        push_cast
        ring
      rw [hfeed, hrate (b % ns.sum) hc hm]
      unfold decayRates
      rw [if_neg (by omega)]
      ring
    · have hm0 : manOf ns (b % ns.sum) = 0 := by omega
      rw [hm0, offs_zero]
      rw [if_neg (by rintro ⟨-, h2⟩; omega)]
      simp
  · rw [hoverlap _ _ hc he hce, if_neg (by rintro ⟨h1, -⟩; exact hce h1)]
    simp

/-! ### The real-basis pipeline and `drhodt` (sources
`obe.transform_ev_matrix`, `obe.transform_ev_matrices`,
`obe.return_magnetic_field`, `obe.drhodt`) -/

/-- `Uinv @ ev_mat @ U` (source `obe.transform_ev_matrix`); after asserting
the imaginary component is negligible the source keeps `np.real(...)`. -/
def transform_ev_matrix (n : ℕ) (M : ℕ → ℕ → ℂ) : ℕ → ℕ → ℝ :=
  fun a b =>
    (matMulN (n * n) (Uinvmat n) (matMulN (n * n) M (Umat n)) a b).re

/-- Real matrix–vector product for the transformed evolution matrices. -/
def mulVecR (m : ℕ) (M : ℕ → ℕ → ℝ) (v : ℕ → ℝ) : ℕ → ℝ :=
  fun a => ∑ b ∈ Finset.range m, M a b * v b

/-- Real-basis analogue of `conservesTrace`. -/
def conservesTraceR (n : ℕ) (M : ℕ → ℕ → ℝ) : Prop :=
  ∀ b ∈ Finset.range (n * n),
    ∑ i ∈ Finset.range n, M (density_index n i i) b = 0

lemma conservesTraceR_mulVec {n : ℕ} {M : ℕ → ℕ → ℝ}
    (h : conservesTraceR n M) (ρ : ℕ → ℝ) :
    ∑ i ∈ Finset.range n, mulVecR (n * n) M ρ (density_index n i i) = 0 := by
  unfold mulVecR
  rw [Finset.sum_comm]
  apply Finset.sum_eq_zero
  intro b hb
  rw [← Finset.sum_mul, h b hb, zero_mul]

/-- The real-basis transform preserves trace conservation: the diagonal rows
of `Uinv` are unit vectors, so the diagonal-row column sums of `Uinv·M·U` are
`U`-combinations of those of `M`. -/
lemma conservesTrace_transform {n : ℕ} {M : ℕ → ℕ → ℂ}
    (h : conservesTrace n M) :
    conservesTraceR n (transform_ev_matrix n M) := by
  intro b hb
  unfold transform_ev_matrix
  rw [← Complex.re_sum]
  have hz : (∑ i ∈ Finset.range n,
      matMulN (n * n) (Uinvmat n) (matMulN (n * n) M (Umat n))
        (density_index n i i) b) = 0 := by
    have hrow : ∀ i ∈ Finset.range n,
        matMulN (n * n) (Uinvmat n) (matMulN (n * n) M (Umat n))
          (density_index n i i) b
        = matMulN (n * n) M (Umat n) (density_index n i i) b := by
      intro i hi
      rw [Finset.mem_range] at hi
      rw [matMul_row_one (Uinvmat_row_diag hi) (density_index_lt hi hi) b,
        one_mul]
    rw [Finset.sum_congr rfl hrow]
    unfold matMulN
    rw [Finset.sum_comm]
    apply Finset.sum_eq_zero
    intro y hy
    rw [← Finset.sum_mul, h y hy, zero_mul]
  rw [hz]
  simp

/-- Source `obe.return_magnetic_field` in the complex basis.  NOTE: the
source signature is `return_magnetic_field(self, t, r)` and the field model
is evaluated on the second parameter (`B = self.magField.Field(r)`); the
result is converted to the spherical basis. -/
def return_magnetic_field_c {α : Type} (Field : α → Fin 3 → ℝ) (t r : α) :
    Fin 3 → ℂ := fun q =>
  if q = 0 then
    (Field r 0 : ℂ) / (Real.sqrt 2 : ℂ)
      + Complex.I * (Field r 1 : ℂ) / (Real.sqrt 2 : ℂ)
  else if q = 1 then ((Field r 2 : ℝ) : ℂ)
  else -(Field r 0 : ℂ) / (Real.sqrt 2 : ℂ)
      + Complex.I * (Field r 1 : ℂ) / (Real.sqrt 2 : ℂ)

/-- Source `obe.return_magnetic_field` when `transform_into_re_im` is set:
the Cartesian field at the second parameter is returned unchanged. -/
def return_magnetic_field_re {α : Type} (Field : α → Fin 3 → ℝ) (t r : α) :
    Fin 3 → ℝ := Field r

/-- Source `obe.drhodt`, complex basis (`transform_into_re_im = False`).
`α` is the carrier of positions/times handed to the (untyped) field models;
`reA` models `np.real`.  Note the source computes
`Eq = total_electric_field(np.real(r), t)` and
`Bq = self.return_magnetic_field(t, r)`. -/
def drhodt_c {α : Type} (n : ℕ) (keys : Finset String)
    (dec H0 : ℕ → ℕ → ℂ) (Eev Esev : String → Fin 3 → ℕ → ℕ → ℂ)
    (Bev : Fin 3 → ℕ → ℕ → ℂ)
    (EF : String → α → α → Fin 3 → ℂ) (BF : α → Fin 3 → ℝ) (reA : α → α)
    (r t : α) (ρ : ℕ → ℂ) : ℕ → ℂ := fun a =>
  mulVecN (n * n) dec ρ a + mulVecN (n * n) H0 ρ a
    - (∑ key ∈ keys, ∑ q : Fin 3,
        if 1e-10 < Complex.abs (EF key (reA r) t q) then
          0.5 * (starRingEnd ℂ) (EF key (reA r) t q)
              * mulVecN (n * n) (Eev key q) ρ a
            + 0.5 * EF key (reA r) t q * mulVecN (n * n) (Esev key q) ρ a
        else 0)
    + ∑ q : Fin 3,
        if 1e-10 < Complex.abs (return_magnetic_field_c BF t r q) then
          return_magnetic_field_c BF t r q * mulVecN (n * n) (Bev q) ρ a
        else 0

/-- Source `obe.drhodt`, real basis (`transform_into_re_im = True`): uses
`Eq = total_electric_field(r, t)` with `0.5·Re/Im` weights against the
`reE`/`imE` matrices, and `Bq = self.return_magnetic_field(t, r)` (the
Cartesian field itself). -/
def drhodt_re {α : Type} (n : ℕ) (keys : Finset String)
    (dec H0 : ℕ → ℕ → ℝ) (reEev imEev : String → Fin 3 → ℕ → ℕ → ℝ)
    (Bev : Fin 3 → ℕ → ℕ → ℝ)
    (EF : String → α → α → Fin 3 → ℂ) (BF : α → Fin 3 → ℝ)
    (r t : α) (ρ : ℕ → ℝ) : ℕ → ℝ := fun a =>
  mulVecR (n * n) dec ρ a + mulVecR (n * n) H0 ρ a
    - (∑ key ∈ keys, ∑ q : Fin 3,
        if 1e-10 < Complex.abs (EF key r t q) then
          0.5 * (EF key r t q).re * mulVecR (n * n) (reEev key q) ρ a
            + 0.5 * (EF key r t q).im * mulVecR (n * n) (imEev key q) ρ a
        else 0)
    + ∑ q : Fin 3,
        if 1e-10 < |return_magnetic_field_re BF t r q| then
          return_magnetic_field_re BF t r q * mulVecR (n * n) (Bev q) ρ a
        else 0

/-- Source `obe.transform_ev_matrices`: `reE = transform(E + E*)` per
spherical component. -/
def transform_reE (n : ℕ) (Eev Esev : Fin 3 → ℕ → ℕ → ℂ) :
    Fin 3 → ℕ → ℕ → ℝ := fun q =>
  transform_ev_matrix n (fun a b => Eev q a b + Esev q a b)

/-- Source `obe.transform_ev_matrices`: `imE = transform(−i(E − E*))`. -/
def transform_imE (n : ℕ) (Eev Esev : Fin 3 → ℕ → ℕ → ℂ) :
    Fin 3 → ℕ → ℕ → ℝ := fun q =>
  transform_ev_matrix n (fun a b => -Complex.I * (Eev q a b - Esev q a b))

/-- Source `obe.transform_ev_matrices`: the spherical `Bq` matrices are
recombined into real Cartesian ones,
`Bx = transform(1/√2 (B₀ − B₂))`, `By = transform(i/√2 (B₀ + B₂))`,
`Bz = transform(B₁)`. -/
def transform_B (n : ℕ) (Bev : Fin 3 → ℕ → ℕ → ℂ) : Fin 3 → ℕ → ℕ → ℝ :=
  fun q =>
    if q = 0 then
      transform_ev_matrix n
        (fun a b => ((1 / Real.sqrt 2 : ℝ) : ℂ) * (Bev 0 a b - Bev 2 a b))
    else if q = 1 then
      transform_ev_matrix n
        (fun a b =>
          Complex.I * ((1 / Real.sqrt 2 : ℝ) : ℂ) * (Bev 0 a b + Bev 2 a b))
    else transform_ev_matrix n (Bev 1)

/-- C2 (amended).  For every position `r`, time `t` and density vector `ρ`
(in either the complex or the real basis), the sum over all `n` diagonal
(population) indices `density_index(i,i)` of `drhodt(r, t, ρ)` is zero —
**provided** (i) the aggregated dipole operator is componentwise Hermitian
and has no elements inside a single manifold (true for assembled
Hamiltonians), (ii) every state's total decay rate equals its manifold's
mean exactly (the constructor only checks this within tolerance), and
(iii) decay amplitudes of distinct states do not overlap
(`∑_q ∑_{i below} d_q[i,c]·d_q[e,i] = 0` for `c ≠ e`).  Without (ii)/(iii)
trace conservation fails (see the counterexample). -/
theorem C2_drhodt_trace_conservation {α : Type} (ns : List ℕ)
    (d : Fin 3 → ℕ → ℕ → ℂ) (H_0 : ℕ → ℕ → ℂ) (mu_q : Fin 3 → ℕ → ℕ → ℂ)
    (d_q_bare d_q_star : String → Fin 3 → ℕ → ℕ → ℂ) (keys : Finset String)
    (EF : String → α → α → Fin 3 → ℂ) (BF : α → Fin 3 → ℝ) (reA : α → α)
    (r t : α)
    (hherm : ∀ q : Fin 3, ∀ i j : ℕ, i < ns.sum → j < ns.sum →
      d q j i = (starRingEnd ℂ) (d q i j))
    (hblock : ∀ q : Fin 3, ∀ i j : ℕ, i < ns.sum → j < ns.sum →
      manOf ns i = manOf ns j → d q i j = 0)
    (hrate : ∀ ii : ℕ, ii < ns.sum → 1 ≤ manOf ns ii →
      stateRate d ii = rateMean ns d (manOf ns ii))
    (hoverlap : ∀ c e : ℕ, c < ns.sum → e < ns.sum → c ≠ e →
      (∑ i ∈ Finset.range (offs ns (min (manOf ns c) (manOf ns e))),
        ∑ q : Fin 3, d q i c * d q e i) = 0) :
    (∀ ρ : ℕ → ℂ,
      ∑ i ∈ Finset.range ns.sum,
        drhodt_c ns.sum keys (build_decay_ev ns d)
          (build_coherent_ev_submatrix ns.sum H_0)
          (fun k q => build_coherent_ev_submatrix ns.sum (d_q_bare k q))
          (fun k q => build_coherent_ev_submatrix ns.sum (d_q_star k q))
          (fun q => build_coherent_ev_submatrix ns.sum (mu_q q))
          EF BF reA r t ρ (density_index ns.sum i i) = 0)
    ∧ (∀ ρ : ℕ → ℝ,
      ∑ i ∈ Finset.range ns.sum,
        drhodt_re ns.sum keys
          (transform_ev_matrix ns.sum (build_decay_ev ns d))
          (transform_ev_matrix ns.sum
            (build_coherent_ev_submatrix ns.sum H_0))
          (fun k => transform_reE ns.sum
            (fun q => build_coherent_ev_submatrix ns.sum (d_q_bare k q))
            (fun q => build_coherent_ev_submatrix ns.sum (d_q_star k q)))
          (fun k => transform_imE ns.sum
            (fun q => build_coherent_ev_submatrix ns.sum (d_q_bare k q))
            (fun q => build_coherent_ev_submatrix ns.sum (d_q_star k q)))
          (transform_B ns.sum
            (fun q => build_coherent_ev_submatrix ns.sum (mu_q q)))
          EF BF r t ρ (density_index ns.sum i i) = 0) := by
  have hdec : conservesTrace ns.sum (build_decay_ev ns d) :=
    conservesTrace_decay ns d hherm hblock hrate hoverlap
  constructor
  · intro ρ
    unfold drhodt_c
    simp only [Finset.sum_add_distrib, Finset.sum_sub_distrib]
    rw [conservesTrace_mulVec hdec,
      conservesTrace_mulVec (conservesTrace_coherent ns.sum H_0)]
    have hE : (∑ i ∈ Finset.range ns.sum, ∑ key ∈ keys, ∑ q : Fin 3,
        if 1e-10 < Complex.abs (EF key (reA r) t q) then
          0.5 * (starRingEnd ℂ) (EF key (reA r) t q)
              * mulVecN (ns.sum * ns.sum)
                (build_coherent_ev_submatrix ns.sum (d_q_bare key q)) ρ
                (density_index ns.sum i i)
            + 0.5 * EF key (reA r) t q
              * mulVecN (ns.sum * ns.sum)
                (build_coherent_ev_submatrix ns.sum (d_q_star key q)) ρ
                (density_index ns.sum i i)
        else 0) = 0 := by
      rw [Finset.sum_comm]
      apply Finset.sum_eq_zero
      intro key _
      rw [Finset.sum_comm]
      apply Finset.sum_eq_zero
      intro q _
      by_cases hcnd : 1e-10 < Complex.abs (EF key (reA r) t q)
      · simp only [hcnd, if_true]
        rw [Finset.sum_add_distrib, ← Finset.mul_sum, ← Finset.mul_sum,
          conservesTrace_mulVec (conservesTrace_coherent ns.sum
            (d_q_bare key q)),
          conservesTrace_mulVec (conservesTrace_coherent ns.sum
            (d_q_star key q))]
        ring
      · simp [hcnd]
    have hB : (∑ i ∈ Finset.range ns.sum, ∑ q : Fin 3,
        if 1e-10 < Complex.abs (return_magnetic_field_c BF t r q) then
          return_magnetic_field_c BF t r q
            * mulVecN (ns.sum * ns.sum)
              (build_coherent_ev_submatrix ns.sum (mu_q q)) ρ
              (density_index ns.sum i i)
        else 0) = 0 := by
      rw [Finset.sum_comm]
      apply Finset.sum_eq_zero
      intro q _
      by_cases hcnd : 1e-10 < Complex.abs (return_magnetic_field_c BF t r q)
      · simp only [hcnd, if_true]
        rw [← Finset.mul_sum,
          conservesTrace_mulVec (conservesTrace_coherent ns.sum (mu_q q))]
        ring
      · simp [hcnd]
    rw [hE, hB]
    ring
  · intro ρ
    have hreE : ∀ k : String, ∀ q : Fin 3, conservesTraceR ns.sum
        (transform_reE ns.sum
          (fun q => build_coherent_ev_submatrix ns.sum (d_q_bare k q))
          (fun q => build_coherent_ev_submatrix ns.sum (d_q_star k q)) q) :=
      fun k q => by
        unfold transform_reE
        exact conservesTrace_transform (conservesTrace_add
          (conservesTrace_coherent ns.sum (d_q_bare k q))
          (conservesTrace_coherent ns.sum (d_q_star k q)))
    have himE : ∀ k : String, ∀ q : Fin 3, conservesTraceR ns.sum
        (transform_imE ns.sum
          (fun q => build_coherent_ev_submatrix ns.sum (d_q_bare k q))
          (fun q => build_coherent_ev_submatrix ns.sum (d_q_star k q)) q) :=
      fun k q => by
        unfold transform_imE
        exact conservesTrace_transform (conservesTrace_smul (-Complex.I)
          (conservesTrace_sub
            (conservesTrace_coherent ns.sum (d_q_bare k q))
            (conservesTrace_coherent ns.sum (d_q_star k q))))
    have hBt : ∀ q : Fin 3, conservesTraceR ns.sum
        (transform_B ns.sum
          (fun q => build_coherent_ev_submatrix ns.sum (mu_q q)) q) := by
      intro q
      unfold transform_B
      split_ifs
      · exact conservesTrace_transform (conservesTrace_smul _
          (conservesTrace_sub
            (conservesTrace_coherent ns.sum (mu_q 0))
            (conservesTrace_coherent ns.sum (mu_q 2))))
      · exact conservesTrace_transform (conservesTrace_smul _
          (conservesTrace_add
            (conservesTrace_coherent ns.sum (mu_q 0))
            (conservesTrace_coherent ns.sum (mu_q 2))))
      · exact conservesTrace_transform (conservesTrace_coherent ns.sum (mu_q 1))
    unfold drhodt_re
    simp only [Finset.sum_add_distrib, Finset.sum_sub_distrib]
    rw [conservesTraceR_mulVec (conservesTrace_transform hdec),
      conservesTraceR_mulVec (conservesTrace_transform
        (conservesTrace_coherent ns.sum H_0))]
    have hE : (∑ i ∈ Finset.range ns.sum, ∑ key ∈ keys, ∑ q : Fin 3,
        if 1e-10 < Complex.abs (EF key r t q) then
          0.5 * (EF key r t q).re
              * mulVecR (ns.sum * ns.sum)
                (transform_reE ns.sum
                  (fun q => build_coherent_ev_submatrix ns.sum
                    (d_q_bare key q))
                  (fun q => build_coherent_ev_submatrix ns.sum
                    (d_q_star key q)) q) ρ
                (density_index ns.sum i i)
            + 0.5 * (EF key r t q).im
              * mulVecR (ns.sum * ns.sum)
                (transform_imE ns.sum
                  (fun q => build_coherent_ev_submatrix ns.sum
                    (d_q_bare key q))
                  (fun q => build_coherent_ev_submatrix ns.sum
                    (d_q_star key q)) q) ρ
                (density_index ns.sum i i)
        else 0) = 0 := by
      rw [Finset.sum_comm]
      apply Finset.sum_eq_zero
      intro key _
      rw [Finset.sum_comm]
      apply Finset.sum_eq_zero
      intro q _
      by_cases hcnd : 1e-10 < Complex.abs (EF key r t q)
      · simp only [hcnd, if_true]
        rw [Finset.sum_add_distrib, ← Finset.mul_sum, ← Finset.mul_sum,
          conservesTraceR_mulVec (hreE key q),
          conservesTraceR_mulVec (himE key q)]
        ring
      · simp [hcnd]
    have hB : (∑ i ∈ Finset.range ns.sum, ∑ q : Fin 3,
        if 1e-10 < |return_magnetic_field_re BF t r q| then
          return_magnetic_field_re BF t r q
            * mulVecR (ns.sum * ns.sum)
              (transform_B ns.sum
                (fun q => build_coherent_ev_submatrix ns.sum (mu_q q)) q) ρ
              (density_index ns.sum i i)
        else 0) = 0 := by
      rw [Finset.sum_comm]
      apply Finset.sum_eq_zero
      intro q _
      by_cases hcnd : 1e-10 < |return_magnetic_field_re BF t r q|
      · simp only [hcnd, if_true]
        rw [← Finset.mul_sum, conservesTraceR_mulVec (hBt q)]
        ring
      · simp [hcnd]
    rw [hE, hB]
    ring

/-- Two-level system (`ns = [1,1]`) used as the C2 witness: a single
Hermitian dipole component coupling the two states. -/
def w2ns : List ℕ := [1, 1]

/-- Aggregated dipole operator of the witness system. -/
def w2d : Fin 3 → ℕ → ℕ → ℂ := fun q i j =>
  if q = 1 ∧ (i = 0 ∧ j = 1 ∨ i = 1 ∧ j = 0) then 1 else 0

lemma w2_manOf_zero : manOf w2ns 0 = 0 :=
  ((mem_manifoldF_iff w2ns (by decide) 0).mp (by decide)).symm

lemma w2_manOf_one : manOf w2ns 1 = 1 :=
  ((mem_manifoldF_iff w2ns (by decide) 1).mp (by decide)).symm

lemma w2_stateRate_one : stateRate w2d 1 = 1 := by
  unfold stateRate
  rw [Fin.sum_univ_three]
  simp [w2d, Finset.sum_range_one]

lemma w2_hherm : ∀ q : Fin 3, ∀ i j : ℕ, i < w2ns.sum → j < w2ns.sum →
    w2d q j i = (starRingEnd ℂ) (w2d q i j) := by
  intro q i j hi hj
  have hs : w2ns.sum = 2 := rfl
  rw [hs] at hi hj
  interval_cases i <;> interval_cases j <;> fin_cases q <;> simp [w2d]

lemma w2_hblock : ∀ q : Fin 3, ∀ i j : ℕ, i < w2ns.sum → j < w2ns.sum →
    manOf w2ns i = manOf w2ns j → w2d q i j = 0 := by
  intro q i j hi hj hman
  have hs : w2ns.sum = 2 := rfl
  rw [hs] at hi hj
  interval_cases i <;> interval_cases j
  · fin_cases q <;> simp [w2d]
  · rw [w2_manOf_zero, w2_manOf_one] at hman; omega
  · rw [w2_manOf_zero, w2_manOf_one] at hman; omega
  · fin_cases q <;> simp [w2d]

lemma w2_hrate : ∀ ii : ℕ, ii < w2ns.sum → 1 ≤ manOf w2ns ii →
    stateRate w2d ii = rateMean w2ns w2d (manOf w2ns ii) := by
  intro ii hii hm
  have hs : w2ns.sum = 2 := rfl
  rw [hs] at hii
  interval_cases ii
  · rw [w2_manOf_zero] at hm
    omega
  · rw [w2_manOf_one]
    unfold rateMean
    have hmani : manifoldF w2ns 1 = {1} := by decide
    rw [hmani, Finset.sum_singleton, Finset.card_singleton]
    norm_num
lemma w2_hoverlap : ∀ c e : ℕ, c < w2ns.sum → e < w2ns.sum → c ≠ e →
    (∑ i ∈ Finset.range (offs w2ns (min (manOf w2ns c) (manOf w2ns e))),
      ∑ q : Fin 3, w2d q i c * w2d q e i) = 0 := by
  intro c e hc he hne
  have hs : w2ns.sum = 2 := rfl
  rw [hs] at hc he
  interval_cases c <;> interval_cases e <;>
    simp_all [w2_manOf_zero, w2_manOf_one, offs_zero]

/-- Witness for C2 at the two-level system (`ns = [1,1]`, Hermitian `d_q`
with unit matrix element, no lasers, zero magnetic field, complex basis,
`ρ = 0`): all four hypotheses hold and the diagonal sum of `drhodt`
vanishes. -/
theorem C2_drhodt_trace_conservation_witness :
    (∀ q : Fin 3, ∀ i j : ℕ, i < w2ns.sum → j < w2ns.sum →
      w2d q j i = (starRingEnd ℂ) (w2d q i j))
    ∧ (∀ q : Fin 3, ∀ i j : ℕ, i < w2ns.sum → j < w2ns.sum →
      manOf w2ns i = manOf w2ns j → w2d q i j = 0)
    ∧ (∀ ii : ℕ, ii < w2ns.sum → 1 ≤ manOf w2ns ii →
      stateRate w2d ii = rateMean w2ns w2d (manOf w2ns ii))
    ∧ (∀ c e : ℕ, c < w2ns.sum → e < w2ns.sum → c ≠ e →
      (∑ i ∈ Finset.range (offs w2ns (min (manOf w2ns c) (manOf w2ns e))),
        ∑ q : Fin 3, w2d q i c * w2d q e i) = 0)
    ∧ (∑ i ∈ Finset.range w2ns.sum,
        drhodt_c w2ns.sum ∅ (build_decay_ev w2ns w2d)
          (build_coherent_ev_submatrix w2ns.sum (fun _ _ => 0))
          (fun _ _ => fun _ _ => (0 : ℂ)) (fun _ _ => fun _ _ => (0 : ℂ))
          (fun q => build_coherent_ev_submatrix w2ns.sum (fun _ _ => 0))
          (fun _ _ _ _ => 0) (fun _ _ => 0) id () () (fun _ => 0)
          (density_index w2ns.sum i i) = 0) :=
  ⟨w2_hherm, w2_hblock, w2_hrate, w2_hoverlap,
    (C2_drhodt_trace_conservation w2ns w2d (fun _ _ => 0)
      (fun _ => fun _ _ => 0) (fun _ _ => fun _ _ => 0)
      (fun _ _ => fun _ _ => 0) ∅ (fun _ _ _ _ => 0) (fun _ _ => 0) id () ()
      w2_hherm w2_hblock w2_hrate w2_hoverlap).1 (fun _ => 0)⟩

/-- Counterexample system for C2: one ground state, two excited states with
overlapping decay amplitudes (`ns = [1,2]`, `d₁` couples state 0 to both 1
and 2 with unit amplitude). -/
def c2ns : List ℕ := [1, 2]

/-- Aggregated dipole operator of the counterexample system (Hermitian, and
it passes the equal-decay-rate check: both excited states decay at rate
1). -/
def c2d : Fin 3 → ℕ → ℕ → ℂ := fun q i j =>
  if q = 1 ∧ (i = 0 ∧ j = 1 ∨ i = 1 ∧ j = 0 ∨ i = 0 ∧ j = 2 ∨ i = 2 ∧ j = 0)
  then 1 else 0

/-- A pure excited-state coherence `ρ₁₂` as flattened density vector
(`density_index 3 1 2 = 7`). -/
def c2rho : ℕ → ℂ := fun b => if b = 7 then 1 else 0

lemma c2_manOf_one : manOf c2ns 1 = 1 := by
  have h : (1 : ℕ) ∈ manifoldF c2ns 1 := by decide
  exact ((mem_manifoldF_iff c2ns (by decide) 1).mp h).symm

lemma c2_manOf_two : manOf c2ns 2 = 1 := by
  have h : (2 : ℕ) ∈ manifoldF c2ns 1 := by decide
  exact ((mem_manifoldF_iff c2ns (by decide) 1).mp h).symm

lemma c2_stateRate_one : stateRate c2d 1 = 1 := by
  unfold stateRate
  rw [Fin.sum_univ_three]
  simp [c2d, Finset.sum_range_one]

lemma c2_stateRate_two : stateRate c2d 2 = 1 := by
  unfold stateRate
  rw [Fin.sum_univ_three]
  simp [c2d, Finset.sum_range_succ, Finset.sum_range_one]

/-- C2 counterexample: the construction succeeds (the decay-rate check
passes: both excited states decay at rate 1), yet the sum of the diagonal
entries of `drhodt` at the excited-state coherence `ρ₁₂ = 1` equals 1 ≠ 0 —
the claim that the trace is conserved for *every* density vector is false
on the code. -/
theorem C2_counterexample :
    ¬ build_decay_ev_raises c2ns c2d
    ∧ (∑ i ∈ Finset.range c2ns.sum,
        drhodt_c c2ns.sum ∅ (build_decay_ev c2ns c2d)
          (build_coherent_ev_submatrix c2ns.sum (fun _ _ => 0))
          (fun _ _ => fun _ _ => (0 : ℂ)) (fun _ _ => fun _ _ => (0 : ℂ))
          (fun q => build_coherent_ev_submatrix c2ns.sum (fun _ _ => 0))
          (fun _ _ _ _ => 0) (fun _ _ => 0) id () () c2rho
          (density_index c2ns.sum i i)) ≠ 0 := by
  constructor
  · rintro ⟨l, hl, hfail⟩
    rw [Finset.mem_Ico] at hl
    have hlen : c2ns.length = 2 := rfl
    have hl1 : l = 1 := by omega
    subst hl1
    apply hfail
    intro ii hii
    have hmani : manifoldF c2ns 1 = {1, 2} := by decide
    have hmean : rateMean c2ns c2d 1 = 1 := by
      unfold rateMean
      rw [hmani, Finset.sum_insert (by decide), Finset.sum_singleton,
        c2_stateRate_one, c2_stateRate_two]
      norm_num
    rw [hmani] at hii
    rcases Finset.mem_insert.mp hii with rfl | h2
    · rw [c2_stateRate_one, hmean]
      norm_num
    · rw [Finset.mem_singleton] at h2
      subst h2
      rw [c2_stateRate_two, hmean]
      norm_num
  · have hcol : ∀ a : ℕ,
        mulVecN (c2ns.sum * c2ns.sum) (build_decay_ev c2ns c2d) c2rho a
        = build_decay_ev c2ns c2d a 7 := by
      intro a
      unfold mulVecN c2rho
      simp only [mul_ite, mul_one, mul_zero]
      rw [Finset.sum_ite_eq']
      rw [if_pos (by decide : (7 : ℕ) ∈ Finset.range (c2ns.sum * c2ns.sum))]
    unfold drhodt_c
    simp only [Finset.sum_add_distrib, Finset.sum_sub_distrib,
      Finset.sum_empty]
    rw [conservesTrace_mulVec
      (conservesTrace_coherent c2ns.sum (fun _ _ => 0))]
    have hBzero : (∑ i ∈ Finset.range c2ns.sum, ∑ q : Fin 3,
        if 1e-10 < Complex.abs
            (return_magnetic_field_c (fun _ _ => (0 : ℝ)) () () q) then
          return_magnetic_field_c (fun _ _ => (0 : ℝ)) () () q
            * mulVecN (c2ns.sum * c2ns.sum)
              (build_coherent_ev_submatrix c2ns.sum (fun _ _ => 0)) c2rho
              (density_index c2ns.sum i i)
        else 0) = 0 := by
      apply Finset.sum_eq_zero
      intro i _
      apply Finset.sum_eq_zero
      intro q _
      rw [if_neg]
      unfold return_magnetic_field_c
      split_ifs <;> norm_num
    rw [hBzero]
    rw [Finset.sum_congr rfl fun i _ => hcol (density_index c2ns.sum i i)]
    rw [show (7 : ℕ) = density_index c2ns.sum 1 2 from rfl]
    unfold build_decay_ev
    simp only [Finset.sum_add_distrib]
    rw [feed_trace c2ns c2d (by decide) (by decide),
      lw_trace c2ns c2d (by decide) (by decide),
      lc_trace c2ns c2d (density_index c2ns.sum 1 2)]
    rw [c2_manOf_one, c2_manOf_two, min_self]
    rw [if_neg (by rintro ⟨h, -⟩; omega)]
    have hoffs : offs c2ns 1 = 1 := rfl
    rw [hoffs]
    rw [Finset.sum_range_one, Fin.sum_univ_three]
    simp [c2d]

/-! ### `obe.full_OBE_ev` (real basis) and claim C7 -/

/-- Source `obe.full_OBE_ev` in the real basis: assembles
`decay + H0 − Σ E-terms + Σ B-terms` from the pre-stored matrices.  NOTE:
the source computes `Bq = self.return_magnetic_field(r, t)`, passing the
position and time in the order `(r, t)` to a method whose signature is
`return_magnetic_field(self, t, r)` — so the magnetic field model is
evaluated at the *time* `t` (whereas `drhodt` calls
`self.return_magnetic_field(t, r)`, evaluating the model at the position
`r`). -/
def full_OBE_ev_re {α : Type} (n : ℕ) (keys : Finset String)
    (dec H0 : ℕ → ℕ → ℝ) (reEev imEev : String → Fin 3 → ℕ → ℕ → ℝ)
    (Bev : Fin 3 → ℕ → ℕ → ℝ)
    (EF : String → α → α → Fin 3 → ℂ) (BF : α → Fin 3 → ℝ)
    (r t : α) : ℕ → ℕ → ℝ := fun a b =>
  dec a b + H0 a b
    - (∑ key ∈ keys, ∑ q : Fin 3,
        if 1e-10 < Complex.abs (EF key r t q) then
          0.5 * (EF key r t q).re * reEev key q a b
            + 0.5 * (EF key r t q).im * imEev key q a b
        else 0)
    + ∑ q : Fin 3,
        if 1e-10 < |return_magnetic_field_re BF r t q| then
          return_magnetic_field_re BF r t q * Bev q a b
        else 0

/-- Stored real `B` evolution matrices of the C7 instance: only the `z`
component is nonzero, with entries `(di(1,0), di(0,1)) = −2` and
`(di(0,1), di(1,0)) = 2` (the value `transform_ev_matrices` produces for a
two-state manifold with `mu_q[1] = diag(1,−1)`). -/
def c7Bev : Fin 3 → ℕ → ℕ → ℝ := fun q a b =>
  if q = 2 ∧ a = 1 ∧ b = 2 then -2
  else if q = 2 ∧ a = 2 ∧ b = 1 then 2
  else 0

/-- C7 magnetic-field model: nonzero (z-component 1) at the position
`true`, zero at the time `false`. -/
def c7BF : Bool → Fin 3 → ℝ := fun x q => if x = true ∧ q = 2 then 1 else 0

/-- Density vector with the single coherence `rho_{01}`
(`density_index 2 0 1 = 2`). -/
def c7rho : ℕ → ℝ := fun b => if b = 2 then 1 else 0

/-- C7 (code bug): with a position-dependent magnetic field
(`Field(true) = ẑ`, `Field(false) = 0`), position `r = true` and time
`t = false`, multiplying the generator returned by `full_OBE_ev(r, t)` by
`ρ` does NOT give `drhodt(r, t, ρ)`: `full_OBE_ev` passes `(r, t)` to
`return_magnetic_field(self, t, r)` and therefore evaluates the magnetic
field model at the time `t` (getting 0), while `drhodt` evaluates it at the
position `r` (getting `ẑ`).  Here the stored operator set is an empty laser
set with the single nonzero real `B_z` matrix of a two-state manifold. -/
theorem C7_full_OBE_ev_code_bug :
    mulVecR (2 * 2)
        (full_OBE_ev_re 2 ∅ (fun _ _ => 0) (fun _ _ => 0)
          (fun _ _ _ _ => 0) (fun _ _ _ _ => 0) c7Bev
          (fun _ _ _ _ => 0) c7BF true false) c7rho 1
      ≠ drhodt_re 2 ∅ (fun _ _ => 0) (fun _ _ => 0) (fun _ _ _ _ => 0)
          (fun _ _ _ _ => 0) c7Bev (fun _ _ _ _ => 0) c7BF true false c7rho
          1 := by
  have hL : mulVecR (2 * 2)
      (full_OBE_ev_re 2 ∅ (fun _ _ => 0) (fun _ _ => 0)
        (fun _ _ _ _ => 0) (fun _ _ _ _ => 0) c7Bev
        (fun _ _ _ _ => 0) c7BF true false) c7rho 1 = 0 := by
    unfold mulVecR full_OBE_ev_re return_magnetic_field_re c7BF
    apply Finset.sum_eq_zero
    intro b _
    have hBzero : ∀ q : Fin 3,
        (if (1e-10 : ℝ) < |if false = true ∧ q = 2 then (1 : ℝ) else 0|
          then (if false = true ∧ q = 2 then (1 : ℝ) else 0) * c7Bev q 1 b
          else 0) = 0 := by
      intro q
      rw [if_neg]
      norm_num
    rw [Finset.sum_congr rfl fun q _ => hBzero q]
    simp
  have hR : drhodt_re 2 ∅ (fun _ _ => 0) (fun _ _ => 0) (fun _ _ _ _ => 0)
      (fun _ _ _ _ => 0) c7Bev (fun _ _ _ _ => 0) c7BF true false c7rho 1
      = -2 := by
    unfold drhodt_re return_magnetic_field_re c7BF
    have hmul : ∀ M : ℕ → ℕ → ℝ, mulVecR (2 * 2) M c7rho 1 = M 1 2 := by
      intro M
      unfold mulVecR c7rho
      simp only [mul_ite, mul_one, mul_zero]
      rw [Finset.sum_ite_eq']
      rw [if_pos (by decide : (2 : ℕ) ∈ Finset.range (2 * 2))]
    rw [Finset.sum_empty, Fin.sum_univ_three]
    rw [hmul, hmul, hmul, hmul]
    norm_num [c7Bev]
    simp
  rw [hL, hR]
  norm_num

/-! ### `hamiltonian.return_full_H` and claim C3 -/

/-- `(−1.)**q` for the spherical index `ii` (`q = ii − 1 ∈ {−1,0,+1}`). -/
def qsign : Fin 3 → ℂ := fun ii => if ii = 1 then 1 else -1

/-- The reversed component index `2 − ii` used in `Eq[key][2-ii]`. -/
def qrev : Fin 3 → Fin 3 := fun ii => 2 - ii

/-- The electric-field argument of `return_full_H`: either a single field
vector (a bare list/array in the source) or a dictionary keyed by
transition. -/
inductive EqInput where
  | single (v : Fin 3 → ℂ)
  | keyed (ks : Finset String) (f : String → Fin 3 → ℂ)

/-- `if isinstance(Eq, list/ndarray): Eq = {'g->e': Eq}` — the promoted
dictionary's key set. -/
def promoteKeys : EqInput → Finset String
  | .single _ => {"g->e"}
  | .keyed ks _ => ks

/-- The promoted dictionary's values. -/
def promoteField : EqInput → String → Fin 3 → ℂ
  | .single v => fun _ => v
  | .keyed _ f => f

/-- Source `hamiltonian.return_full_H`:
`H = H_0 − Σ_q mu_q[q]·conj(Bq[q])`, then for every key of `Eq` and
`ii = 0,1,2` (with `q = −1,0,1`):
`H −= 0.5·(−1)^q·d_q_bare[key][ii]·Eq[key][2−ii]
    + 0.5·(−1)^q·d_q_star[key][ii]·conj(Eq[key][2−ii])`. -/
def return_full_H (H_0 : ℕ → ℕ → ℂ) (mu_q : Fin 3 → ℕ → ℕ → ℂ)
    (d_q_bare d_q_star : String → Fin 3 → ℕ → ℕ → ℂ)
    (Eq : EqInput) (Bq : Fin 3 → ℂ) : ℕ → ℕ → ℂ := fun a b =>
  H_0 a b - (∑ q : Fin 3, mu_q q a b * (starRingEnd ℂ) (Bq q))
    - ∑ key ∈ promoteKeys Eq, ∑ ii : Fin 3,
        (0.5 * qsign ii * d_q_bare key ii a b
            * promoteField Eq key (qrev ii)
          + 0.5 * qsign ii * d_q_star key ii a b
            * (starRingEnd ℂ) (promoteField Eq key (qrev ii)))

/-- Modelled from the claim's words (the claim pairs `d_q` with `E*` and
`d_q*` with `E`): identical to `return_full_H` except that the conjugation
is on the other factor of each coupling term. -/
def return_full_H_claim (H_0 : ℕ → ℕ → ℂ) (mu_q : Fin 3 → ℕ → ℕ → ℂ)
    (d_q_bare d_q_star : String → Fin 3 → ℕ → ℕ → ℂ)
    (Eq : EqInput) (Bq : Fin 3 → ℂ) : ℕ → ℕ → ℂ := fun a b =>
  H_0 a b - (∑ q : Fin 3, mu_q q a b * (starRingEnd ℂ) (Bq q))
    - ∑ key ∈ promoteKeys Eq, ∑ ii : Fin 3,
        (0.5 * qsign ii * d_q_bare key ii a b
            * (starRingEnd ℂ) (promoteField Eq key (qrev ii))
          + 0.5 * qsign ii * d_q_star key ii a b
            * promoteField Eq key (qrev ii))

/-- Concrete dipole block for the C3 counterexample: only the `q = +1`
component has a matrix element, at entry `(0, 1)`. -/
def c3d : String → Fin 3 → ℕ → ℕ → ℂ := fun _ ii a b =>
  if ii = 2 ∧ a = 0 ∧ b = 1 then 1 else 0

/-- Its conjugate transpose, as `make_full_matrices` stores it. -/
def c3dstar : String → Fin 3 → ℕ → ℕ → ℂ := fun k ii a b =>
  (starRingEnd ℂ) (c3d k ii b a)

/-- Electric field for the C3 counterexample: component 0 (the one paired
with the `ii = 2` dipole component through `Eq[2−ii]`) is the imaginary
unit. -/
def c3E : EqInput := .single (fun q => if q = 0 then Complex.I else 0)

/-- C3 counterexample: with `H0 = 0`, `mu_q = 0`, a single dipole matrix
element `d_{+1}[0,1] = 1` and field component `E_{−1} = i`, the code gives
entry `(0,1)` equal to `+i/2` while the claim's pairing
(`d_q` with `E*`, `d_q*` with `E`) gives `−i/2`. -/
theorem C3_counterexample :
    return_full_H (fun _ _ => 0) (fun _ _ _ => 0) c3d c3dstar c3E
        (fun _ => 0) 0 1
      ≠ return_full_H_claim (fun _ _ => 0) (fun _ _ _ => 0) c3d c3dstar c3E
        (fun _ => 0) 0 1 := by
  unfold return_full_H return_full_H_claim promoteKeys promoteField c3E
  rw [Finset.sum_singleton, Finset.sum_singleton]
  rw [Fin.sum_univ_three, Fin.sum_univ_three, Fin.sum_univ_three]
  have h05 : (0.5 : ℂ) = ((1/2 : ℝ) : ℂ) := by norm_num
  simp [c3d, c3dstar, qsign, qrev, h05, Complex.ext_iff]
  norm_num

/-- C3 (amended).  For every assembled Hamiltonian (`d_q_star` the
componentwise conjugate transpose of `d_q_bare`), spherical magnetic field
`Bq` and electric field input `Eq`, `return_full_H(Eq, Bq)` returns
`H0 − mu_q·B*` minus, for every key of `Eq` and each spherical component
`q`, the coupling `½(−1)^q [d_q·E_{−q} + (d_q·E_{−q})†]` — i.e. `d_q` pairs
with the field component itself and `d_q†` with its conjugate (not the
other way around, as the claim stated); and a single field vector is
treated as addressing the transition keyed `g->e`. -/
theorem C3_return_full_H (H_0 : ℕ → ℕ → ℂ) (mu_q : Fin 3 → ℕ → ℕ → ℂ)
    (d_q_bare : String → Fin 3 → ℕ → ℕ → ℂ) (Eq : EqInput)
    (Bq : Fin 3 → ℂ) (a b : ℕ) :
    return_full_H H_0 mu_q d_q_bare
        (fun k q x y => (starRingEnd ℂ) (d_q_bare k q y x)) Eq Bq a b
      = H_0 a b - (∑ q : Fin 3, mu_q q a b * (starRingEnd ℂ) (Bq q))
        - ∑ key ∈ promoteKeys Eq, ∑ ii : Fin 3,
            0.5 * qsign ii
              * (d_q_bare key ii a b * promoteField Eq key (qrev ii)
                + (starRingEnd ℂ)
                  (d_q_bare key ii b a * promoteField Eq key (qrev ii)))
    ∧ ∀ v : Fin 3 → ℂ,
      return_full_H H_0 mu_q d_q_bare
          (fun k q x y => (starRingEnd ℂ) (d_q_bare k q y x))
          (.single v) Bq a b
        = return_full_H H_0 mu_q d_q_bare
          (fun k q x y => (starRingEnd ℂ) (d_q_bare k q y x))
          (.keyed {"g->e"} (fun _ => v)) Bq a b := by
  constructor
  · unfold return_full_H
    have hterm : ∀ key ∈ promoteKeys Eq, ∀ ii : Fin 3,
        (0.5 * qsign ii * d_q_bare key ii a b
            * promoteField Eq key (qrev ii)
          + 0.5 * qsign ii
            * (starRingEnd ℂ) (d_q_bare key ii b a)
            * (starRingEnd ℂ) (promoteField Eq key (qrev ii)))
        = 0.5 * qsign ii
            * (d_q_bare key ii a b * promoteField Eq key (qrev ii)
              + (starRingEnd ℂ)
                (d_q_bare key ii b a * promoteField Eq key (qrev ii))) := by
      intro key _ ii
      rw [map_mul]
      ring
    rw [Finset.sum_congr rfl fun key hk => Finset.sum_congr rfl fun ii _ =>
      hterm key hk ii]
  · intro v
    rfl

/-! ### `hamiltonian.add_d_q_block` and claim C4 -/

/-- Componentwise conjugate transpose of a 3-vector of matrices
(`np.array([np.conjugate(d_q[kk].T) for kk in range(3)])`). -/
def conjT (M : Fin 3 → ℕ → ℕ → ℂ) : Fin 3 → ℕ → ℕ → ℂ :=
  fun q x y => (starRingEnd ℂ) (M q y x)

lemma conjT_conjT (M : Fin 3 → ℕ → ℕ → ℂ) : conjT (conjT M) = M := by
  funext q x y
  simp [conjT]

/-- Source `hamiltonian.add_d_q_block(label1, label2, d_q)` acting on the
grid of stored d_q blocks (indexed here by the two manifold ordinals):
if `ind1 > ind2` the input is first conjugate-transposed and the roles
swapped (canonicalization), then the block is stored at the canonical
`(lower, higher)` cell and its conjugate transpose at the transposed cell.
In the source the transposed cell is written last, so on the diagonal-free
grid both writes survive. -/
def add_d_q_block (blocks : ℕ → ℕ → Option (Fin 3 → ℕ → ℕ → ℂ))
    (ind1 ind2 : ℕ) (d_q : Fin 3 → ℕ → ℕ → ℂ) :
    ℕ → ℕ → Option (Fin 3 → ℕ → ℕ → ℂ) := fun i j =>
  if ind2 < ind1 then
    if (i, j) = (ind1, ind2) then some (conjT (conjT d_q))
    else if (i, j) = (ind2, ind1) then some (conjT d_q)
    else blocks i j
  else
    if (i, j) = (ind2, ind1) then some (conjT d_q)
    else if (i, j) = (ind1, ind2) then some d_q
    else blocks i j

/-- The C4 invariant: every pair of transposed off-diagonal cells either
holds a block together with its componentwise conjugate transpose, or is
empty on both sides. -/
def dqPaired (blocks : ℕ → ℕ → Option (Fin 3 → ℕ → ℕ → ℂ)) : Prop :=
  ∀ i j : ℕ, i < j →
    (∃ M, blocks i j = some M ∧ blocks j i = some (conjT M))
      ∨ (blocks i j = none ∧ blocks j i = none)

/-- C4: a call to `add_d_q_block` with distinct manifold ordinals, in
either order, preserves the pairing invariant (the cell at the transposed
position holds, in each of its three spherical components, the conjugate
transpose of the stored block), and the lower ordinal ends up on the
"from" side: the canonical cell `(min, max)` holds `d_q` itself when
`ind1 < ind2` and `conjT d_q` when given in reverse order. -/
theorem C4_add_d_q_block_pairing
    (blocks : ℕ → ℕ → Option (Fin 3 → ℕ → ℕ → ℂ)) (ind1 ind2 : ℕ)
    (d_q : Fin 3 → ℕ → ℕ → ℂ) (hne : ind1 ≠ ind2)
    (hpair : dqPaired blocks) :
    dqPaired (add_d_q_block blocks ind1 ind2 d_q)
      ∧ (ind1 < ind2 →
          add_d_q_block blocks ind1 ind2 d_q ind1 ind2 = some d_q
            ∧ add_d_q_block blocks ind1 ind2 d_q ind2 ind1
              = some (conjT d_q))
      ∧ (ind2 < ind1 →
          add_d_q_block blocks ind1 ind2 d_q ind2 ind1
            = some (conjT d_q)
            ∧ add_d_q_block blocks ind1 ind2 d_q ind1 ind2
              = some (conjT (conjT d_q))) := by
  refine ⟨?_, ?_, ?_⟩
  · intro i j hij
    unfold add_d_q_block
    by_cases hord : ind2 < ind1
    · rw [if_pos hord, if_pos hord]
      by_cases h1 : (i, j) = (ind1, ind2)
      · exfalso
        have h1' : i = ind1 ∧ j = ind2 := Prod.mk.injEq .. ▸ h1
        omega
      · rw [if_neg h1]
        by_cases h2 : (i, j) = (ind2, ind1)
        · have h2' : i = ind2 ∧ j = ind1 := Prod.mk.injEq .. ▸ h2
          rw [if_pos h2]
          rw [if_pos (by rw [Prod.mk.injEq]; omega :
            ((j, i) = (ind1, ind2)))]
          exact Or.inl ⟨conjT d_q, rfl, by rw [conjT_conjT]⟩
        · rw [if_neg h2]
          rw [if_neg (fun hc => h2 (by
            have hc' : j = ind1 ∧ i = ind2 := Prod.mk.injEq .. ▸ hc
            rw [Prod.mk.injEq]; omega))]
          rw [if_neg (fun hc => h1 (by
            have hc' : j = ind2 ∧ i = ind1 := Prod.mk.injEq .. ▸ hc
            rw [Prod.mk.injEq]; omega))]
          exact hpair i j hij
    · rw [if_neg hord, if_neg hord]
      by_cases h1 : (i, j) = (ind2, ind1)
      · exfalso
        have h1' : i = ind2 ∧ j = ind1 := Prod.mk.injEq .. ▸ h1
        omega
      · rw [if_neg h1]
        by_cases h2 : (i, j) = (ind1, ind2)
        · have h2' : i = ind1 ∧ j = ind2 := Prod.mk.injEq .. ▸ h2
          rw [if_pos h2]
          rw [if_pos (by rw [Prod.mk.injEq]; omega :
            ((j, i) = (ind2, ind1)))]
          exact Or.inl ⟨d_q, rfl, rfl⟩
        · rw [if_neg h2]
          rw [if_neg (fun hc => h2 (by
            have hc' : j = ind2 ∧ i = ind1 := Prod.mk.injEq .. ▸ hc
            rw [Prod.mk.injEq]; omega))]
          rw [if_neg (fun hc => h1 (by
            have hc' : j = ind1 ∧ i = ind2 := Prod.mk.injEq .. ▸ hc
            rw [Prod.mk.injEq]; omega))]
          exact hpair i j hij
  · intro hlt
    unfold add_d_q_block
    rw [if_neg (by omega : ¬ ind2 < ind1),
        if_neg (by omega : ¬ ind2 < ind1)]
    constructor
    · rw [if_neg (by rw [Prod.mk.injEq]; omega :
        ¬ ((ind1, ind2) = (ind2, ind1))), if_pos rfl]
    · rw [if_pos rfl]
  · intro hlt
    unfold add_d_q_block
    rw [if_pos hlt, if_pos hlt]
    constructor
    · rw [if_neg (by rw [Prod.mk.injEq]; omega :
        ¬ ((ind2, ind1) = (ind1, ind2))), if_pos rfl]
    · rw [if_pos rfl]

/-- Concrete d_q for the C4 witness: `d_{+1} = |0><1|`. -/
def c4d : Fin 3 → ℕ → ℕ → ℂ := fun q a b =>
  if q = 2 ∧ a = 0 ∧ b = 1 then 1 else 0

/-- C4 witness: starting from an empty grid and registering `c4d` with the
manifold ordinals given in reverse order (`ind1 = 1 > ind2 = 0`), the
pairing invariant holds afterwards and the canonicalization clauses are
realized. -/
theorem C4_add_d_q_block_pairing_witness :
    ((1 : ℕ) ≠ 0)
      ∧ dqPaired (fun _ _ => none)
      ∧ dqPaired (add_d_q_block (fun _ _ => none) 1 0 c4d)
      ∧ add_d_q_block (fun _ _ => none) 1 0 c4d 0 1 = some (conjT c4d) := by
  have h := C4_add_d_q_block_pairing (fun _ _ => none) 1 0 c4d
    (by decide) (fun i j _ => Or.inr ⟨rfl, rfl⟩)
  exact ⟨by decide, fun i j _ => Or.inr ⟨rfl, rfl⟩, h.1,
    (h.2.2 (by decide)).1⟩

/-! ### `obe.set_initial_*` and claim C8 -/

/-- The mutable attributes of an `obe` instance touched by the initial-
condition setters: the initial density vector, position, velocity, the
stored trajectory `sol` (`none` models Python's `None`, `some s` a stored
solution object) and the basis flag. -/
structure ObeState (Sol : Type) where
  rho0 : ℕ → ℂ
  r0 : Fin 3 → ℝ
  v0 : Fin 3 → ℝ
  sol : Option Sol
  transform_into_re_im : Bool

/-- Source `obe.set_initial_position`: sets `r0` and `self.sol = None`. -/
def set_initial_position {Sol} (s : ObeState Sol) (r : Fin 3 → ℝ) :
    ObeState Sol :=
  { s with r0 := r, sol := none }

/-- Source `obe.set_initial_velocity`: sets `v0` and `self.sol = None`. -/
def set_initial_velocity {Sol} (s : ObeState Sol) (v : Fin 3 → ℝ) :
    ObeState Sol :=
  { s with v0 := v, sol := none }

/-- Source `obe.set_initial_rho`: stores `rho0` (taking the real part when
the basis is real but the input is complex-typed; the `astype` cast of the
remaining branch is the identity in this exact-arithmetic model).  The
NaN/Inf guard of the source cannot fire over exact complex numbers and is
not modelled.  Note the method body never assigns `self.sol`. -/
def set_initial_rho {Sol} (s : ObeState Sol) (ρ : ℕ → ℂ)
    (isComplexDtype : Bool) : ObeState Sol :=
  if s.transform_into_re_im ∧ isComplexDtype then
    { s with rho0 := fun k => ((ρ k).re : ℂ) }
  else
    { s with rho0 := ρ }

/-- C8 counterexample: an instance holding a stored trajectory
(`sol = some ()`) still holds it after `set_initial_rho` — the claim that
`self.sol` becomes `None` is false (and `find_equilibrium_force`, source
lines 795–797, relies on the trajectory surviving exactly this call). -/
theorem C8_counterexample :
    (set_initial_rho
        ⟨fun _ => 0, fun _ => 0, fun _ => 0, some (), false⟩
        (fun _ => 1) true).sol ≠ (none : Option Unit) := by
  intro h
  simp [set_initial_rho] at h

/-- C8 (amended): `set_initial_rho` changes only `rho0` — the stored
trajectory `sol` is NOT reset (contrary to the claim), and `r0`, `v0` and
the basis flag are untouched; `set_initial_position` and
`set_initial_velocity` each do reset `sol` to `None` while leaving `rho0`
and the other initial condition unchanged. -/
theorem C8_set_initial_rho_frame {Sol} (s : ObeState Sol) (ρ : ℕ → ℂ)
    (c : Bool) (r v : Fin 3 → ℝ) :
    ((set_initial_rho s ρ c).sol = s.sol
        ∧ (set_initial_rho s ρ c).r0 = s.r0
        ∧ (set_initial_rho s ρ c).v0 = s.v0
        ∧ (set_initial_rho s ρ c).transform_into_re_im
            = s.transform_into_re_im)
      ∧ ((set_initial_position s r).sol = none
          ∧ (set_initial_position s r).r0 = r
          ∧ (set_initial_position s r).rho0 = s.rho0
          ∧ (set_initial_position s r).v0 = s.v0)
      ∧ ((set_initial_velocity s v).sol = none
          ∧ (set_initial_velocity s v).v0 = v
          ∧ (set_initial_velocity s v).rho0 = s.rho0
          ∧ (set_initial_velocity s v).r0 = s.r0) := by
  refine ⟨⟨?_, ?_, ?_, ?_⟩, ⟨rfl, rfl, rfl, rfl⟩, rfl, rfl, rfl, rfl⟩ <;>
    · unfold set_initial_rho
      split <;> rfl

/-! ### `hamiltonian.add_H_0_block` / `add_mu_q_block` and claim C9 -/

/-- A 2-d numpy array: its shape and entries. -/
structure PyMat where
  rows : ℕ
  cols : ℕ
  entry : ℕ → ℕ → ℂ

/-- A 3-d numpy array (`mu_q`-shaped): its shape and entries. -/
structure PyMat3 where
  dim0 : ℕ
  rows : ℕ
  cols : ℕ
  entry : ℕ → ℕ → ℕ → ℂ

/-- A diagonal cell of `hamiltonian.blocks`: either a lone energy block, a
lone magnetic block, or the tuple formed when both have been attached. -/
inductive DiagCell where
  | energy (H : PyMat)
  | magnetic (mu : PyMat3)
  | both (H : PyMat) (mu : PyMat3)

/-- The Python exception class raised. -/
inductive PyErr where
  | valueError
  | attributeError
deriving DecidableEq

/-- Does the cell contain an `H_0` part (`__search_elem_label` with the
`<l|H_0|l>` label succeeds on it)? -/
def cellHasH : DiagCell → Bool
  | .energy _ => true
  | .magnetic _ => false
  | .both _ _ => true

/-- Does the cell contain a `mu_q` part? -/
def cellHasMu : DiagCell → Bool
  | .energy _ => false
  | .magnetic _ => true
  | .both _ _ => true

/-- The `n` attribute of the block stored in a cell (side length of its
matrix). -/
def cellN : DiagCell → ℕ
  | .energy H => H.rows
  | .magnetic mu => mu.rows
  | .both H _ => H.rows

/-- Source `hamiltonian.add_H_0_block`, on the list of labelled diagonal
cells (state labels are unique, as the source's label scheme enforces):
non-square `H_0` raises `ValueError`; a fresh label appends a new energy
cell; if the label already has an energy block (and no lone `mu_q`), it
raises `ValueError('H_0 already added.')`.  In the attach branch
(`elif ind_mu_q:`, the label has only a `mu_q` placeholder) the source
evaluates `self.blocks[ind_H_0].n` where `ind_H_0` is the EMPTY tuple `()`
- `self.blocks[()]` is the whole object-dtype ndarray, which has no
attribute `n`, so the branch always raises `AttributeError` before any
dimension comparison; we model that branch as `.error .attributeError`
unconditionally, exactly as the source behaves. -/
def add_H_0_block (cells : List (String × DiagCell)) (label : String)
    (H_0 : PyMat) : Except PyErr (List (String × DiagCell)) :=
  if H_0.rows ≠ H_0.cols then .error .valueError
  else
    let hasH := cells.any fun p => p.1 == label && cellHasH p.2
    let hasMu := cells.any fun p => p.1 == label && cellHasMu p.2
    if !hasH && !hasMu then .ok (cells ++ [(label, .energy H_0)])
    else if hasMu then .error .attributeError
    else .error .valueError

/-- Source `hamiltonian.add_mu_q_block`: non-`3×n×n` input raises
`ValueError`; a fresh label appends a new magnetic cell; if the label has
an energy block already, the dimensions are compared against its `n` and,
when they match, the cell becomes the `(H_0, mu_q)` tuple; a second
`mu_q` for the same label raises `ValueError`. -/
def add_mu_q_block (cells : List (String × DiagCell)) (label : String)
    (mu_q : PyMat3) : Except PyErr (List (String × DiagCell)) :=
  if mu_q.dim0 ≠ 3 ∨ mu_q.rows ≠ mu_q.cols then .error .valueError
  else
    let hasH := cells.any fun p => p.1 == label && cellHasH p.2
    let hasMu := cells.any fun p => p.1 == label && cellHasMu p.2
    if !hasH && !hasMu then .ok (cells ++ [(label, .magnetic mu_q)])
    else if hasH then
      if hn : ∃ p ∈ cells, p.1 = label ∧ mu_q.rows ≠ cellN p.2 then
        .error .valueError
      else
        .ok (cells.map fun p =>
          if p.1 == label then
            match p.2 with
            | .energy H => (p.1, .both H mu_q)
            | c => (p.1, c)
          else p)
    else .error .valueError

/-- The `3×2×2` zero `mu_q` used in the C9 demonstration. -/
def c9mu : PyMat3 := ⟨3, 2, 2, fun _ _ _ => 0⟩

/-- The `2×2` zero `H_0` used in the C9 demonstration. -/
def c9H : PyMat := ⟨2, 2, fun _ _ => 0⟩

/-- C9 (code bug): registering only a `mu_q` block (3×2×2) under label
`g` succeeds, but the subsequent `add_H_0_block('g', H)` with a square
`H` of the MATCHING dimension 2 does not attach the energy block as
claimed - it raises `AttributeError`, because the attach branch reads
`self.blocks[ind_H_0].n` with `ind_H_0 = ()` (the whole `blocks` ndarray
has no attribute `n`).  The claimed success path is unreachable for every
input. -/
theorem C9_add_H_0_block_code_bug :
    add_mu_q_block [] "g" c9mu = .ok [("g", .magnetic c9mu)]
      ∧ add_H_0_block [("g", .magnetic c9mu)] "g" c9H
          = .error .attributeError := by
  constructor
  · rfl
  · rfl

/-! ### `obe.find_equilibrium_force` and claim C10 -/

/-- The convergence test of `find_equilibrium_force`:
`np.sum((old-f)**2)/np.sum(f**2) < rel or np.sum((old-f)**2) < abs`.
The source initializes `old_f_avg = [inf, inf, inf]`; with an infinite
`old` the squared difference is infinite and neither comparison can hold
for any finite force, which we model by `none` (test fails). -/
def passTest (rel aabs : ℝ) :
    Option (Fin 3 → ℝ) → (Fin 3 → ℝ) → Prop
  | none, _ => False
  | some o, f =>
      (∑ i : Fin 3, (o i - f i) ^ 2) / (∑ i : Fin 3, f i ^ 2) < rel
        ∨ (∑ i : Fin 3, (o i - f i) ^ 2) < aabs

instance passTestDec (rel aabs : ℝ) :
    ∀ (old : Option (Fin 3 → ℝ)) (f : Fin 3 → ℝ),
      Decidable (passTest rel aabs old f)
  | none, _ => isFalse id
  | some _, _ => inferInstanceAs (Decidable (Or _ _))

/-- The `while ii < itermax` loop of `find_equilibrium_force`, with the
remaining iteration budget as fuel.  `window ii st` models the
`evolve_density([ii*deltat, (ii+1)*deltat])` call followed by the
re-seeding of `rho0`, `r0`, `v0` from the end of the window; `favg st`
models `np.mean(force_from_sol(...), axis=1)`.  Each pass computes the
window's average force `f`; if the test against the previous average
passes, the loop breaks and `(f, ii)` is returned; otherwise `old` becomes
`f` and `ii` increments.  Exhausting the budget returns the last average
with the final `ii` (the source falls through to the same `return`); if no
window ever ran (`itermax = 0`), the `return` line raises `NameError`
(`f_avg` was never bound), modelled by the error case. -/
def find_equilibrium_force_loop {σ : Type} (window : ℕ → σ → σ)
    (favg : σ → Fin 3 → ℝ) (rel aabs : ℝ) :
    ℕ → ℕ → σ → Option (Fin 3 → ℝ) → Except Unit ((Fin 3 → ℝ) × ℕ)
  | 0, ii, _, last =>
      match last with
      | some f => .ok (f, ii)
      | none => .error ()
  | fuel + 1, ii, st, old =>
      if passTest rel aabs old (favg (window ii st)) then
        .ok (favg (window ii st), ii)
      else
        find_equilibrium_force_loop window favg rel aabs fuel (ii + 1)
          (window ii st) (some (favg (window ii st)))

/-- Source `obe.find_equilibrium_force` (force output): runs the window
loop from `ii = 0`, initial state `s₀`, and `old_f_avg = inf` (`none`),
returning the pair `(f_avg, ii)`. -/
def find_equilibrium_force {σ : Type} (window : ℕ → σ → σ)
    (favg : σ → Fin 3 → ℝ) (rel aabs : ℝ) (itermax : ℕ) (s₀ : σ) :
    Except Unit ((Fin 3 → ℝ) × ℕ) :=
  find_equilibrium_force_loop window favg rel aabs itermax 0 s₀ none

/-- C10: whenever the thresholds make the convergence test unpassable,
`find_equilibrium_force` with `itermax = 1` runs exactly one window,
returns its time-averaged force together with iteration count exactly 1,
and does not raise: the first test compares against the infinite
`old_f_avg` and fails, `ii` becomes 1, the loop guard `1 < 1` ends the
loop, and the function falls through to the normal `return`. -/
theorem C10_find_equilibrium_force_itermax_one {σ : Type}
    (window : ℕ → σ → σ) (favg : σ → Fin 3 → ℝ) (rel aabs : ℝ) (s₀ : σ)
    (hNC : ∀ old f, ¬ passTest rel aabs old f) :
    find_equilibrium_force window favg rel aabs 1 s₀
      = .ok (favg (window 0 s₀), 1) := by
  unfold find_equilibrium_force
  show find_equilibrium_force_loop window favg rel aabs (0 + 1) 0 s₀ none
    = .ok (favg (window 0 s₀), 1)
  rw [find_equilibrium_force_loop]
  rw [if_neg (hNC none (favg (window 0 s₀)))]
  rfl

/-- C10 witness: trivial one-window system (state `Unit`, constant unit
force) with negative thresholds `rel = abs = −1`, under which neither
branch of the test can hold (both compared quantities are nonnegative). -/
theorem C10_find_equilibrium_force_itermax_one_witness :
    find_equilibrium_force (fun _ (_ : Unit) => ()) (fun _ _ => (1 : ℝ))
        (-1) (-1) 1 ()
      = .ok (fun _ => (1 : ℝ), 1) := by
  refine C10_find_equilibrium_force_itermax_one
    (fun _ (_ : Unit) => ()) (fun _ _ => (1 : ℝ)) (-1) (-1) () ?_
  intro old f
  match old with
  | none => exact id
  | some o =>
      intro hcon
      rcases hcon with h | h
      · have h1 : 0 ≤ (∑ i : Fin 3, (o i - f i) ^ 2)
            / (∑ i : Fin 3, f i ^ 2) := by positivity
        have h2 : (∑ i : Fin 3, (o i - f i) ^ 2)
            / (∑ i : Fin 3, f i ^ 2) < -1 := h
        linarith
      · have h1 : 0 ≤ ∑ i : Fin 3, (o i - f i) ^ 2 := by positivity
        have h2 : (∑ i : Fin 3, (o i - f i) ^ 2) < -1 := h
        linarith

end

end PyLCP
